import Mathlib

/-!
Reviewer assignment service: record store, reviewer index, selection.

A shallow embedding of the Go packages `models`, `db` and `service`.

* Go maps keyed by strings are association lists (`GoMap`) with at most one
  entry per key; `GoMap.get` is `m[k]` and `GoMap.set` is `m[k] = v`.
* A `map[string]struct{}` (a set of strings) is a duplicate-free list of
  strings; `setAdd` is `m[k] = struct{}{}` and `setDelete` is `delete(m, k)`.
* Every store method takes the store state and returns its Go result together
  with the state after the call, so that "nothing changed" is a statement to
  prove and not a property of the result type.
* `time.Now()` is a parameter `now`; `rand.Shuffle` is a parameter `rand`
  holding an arbitrary permutation of the candidate list.
* The `sync.RWMutex` is not modelled: calls are sequential.
-/

namespace Avito

/-! ## Errors -/

/-- Error values of packages `db` and `service`; `PanicSliceBounds` stands for
the run-time panic of the slice expression `candidates[:limit]` when `limit`
is negative. -/
inductive Err
  | ErrTeamExists
  | ErrTeamNotFound
  | ErrUserNotFound
  | ErrPRExists
  | ErrPRNotFound
  | ErrPRMerged
  | ErrReviewerMissing
  | ErrNoCandidate
  | PanicSliceBounds
  deriving DecidableEq, Repr

deriving instance DecidableEq for Except

/-! ## Package models -/

/-- Constant `models.PRStatusOpen`. -/
def PRStatusOpen : String := "OPEN"

/-- Constant `models.PRStatusMerged`. -/
def PRStatusMerged : String := "MERGED"

/-- Struct `models.User`. -/
structure User where
  ID : String
  Username : String
  TeamName : String
  IsActive : Bool
  deriving DecidableEq, Repr

/-- Struct `models.TeamMember`. -/
structure TeamMember where
  UserID : String
  Username : String
  IsActive : Bool
  deriving DecidableEq, Repr

/-- Struct `models.Team`. -/
structure Team where
  Name : String
  Members : List TeamMember
  deriving DecidableEq, Repr

/-- Struct `models.PullRequest`; a `*time.Time` is an optional instant. -/
structure PullRequest where
  ID : String
  Name : String
  AuthorID : String
  Status : String
  AssignedReviewers : List String
  CreatedAt : Option Nat
  MergedAt : Option Nat
  deriving DecidableEq, Repr

/-- Struct `models.PullRequestShort`. -/
structure PullRequestShort where
  ID : String
  Name : String
  AuthorID : String
  Status : String
  deriving DecidableEq, Repr

/-- Method `PullRequest.ToShort`. -/
def PullRequest.ToShort (pr : PullRequest) : PullRequestShort :=
  { ID := pr.ID, Name := pr.Name, AuthorID := pr.AuthorID, Status := pr.Status }

/-! ## Go maps and sets -/

/-- A Go `map[string]V`. -/
abbrev GoMap (V : Type) := List (String × V)

namespace GoMap

variable {V : Type}

/-- The lookup `v, ok := m[k]`. -/
def get (m : GoMap V) (k : String) : Option V :=
  match m with
  | [] => none
  | (k', v) :: t => if k' = k then some v else get t k

/-- The assignment `m[k] = v`: replaces the entry of `k` or adds one. -/
def set (m : GoMap V) (k : String) (v : V) : GoMap V :=
  match m with
  | [] => [(k, v)]
  | (k', v') :: t => if k' = k then (k, v) :: t else (k', v') :: set t k v

/-- The keys of the map, in entry order. -/
def keys (m : GoMap V) : List String := m.map Prod.fst

/-- The stored values of the map, in entry order. -/
def values (m : GoMap V) : List V := m.map Prod.snd

end GoMap

/-- The statement `m[k] = struct{}{}` on a set of strings. -/
def setAdd (e : List String) (k : String) : List String :=
  if k ∈ e then e else e ++ [k]

/-- The statement `delete(m, k)` on a set of strings. -/
def setDelete (e : List String) (k : String) : List String :=
  e.filter (fun x => x ≠ k)

/-- The comparison `result[i].ID < result[j].ID` of `sort.Slice`, as the
non-strict order of the insertion sort below. Go compares the UTF-8 bytes of
the two strings, which orders them as the sequences of their characters. -/
def idLE (a b : PullRequestShort) : Prop := a.ID.data ≤ b.ID.data

instance : DecidableRel idLE := fun a b => by unfold idLE; infer_instance

/-- The call `sort.Slice(result, less)` with `less` comparing ids. -/
def sortByID (result : List PullRequestShort) : List PullRequestShort :=
  List.insertionSort idLE result

/-! ## Package db: the memory store -/

/-- Struct `db.MemoryStore` (without the lock). -/
structure MemoryStore where
  teams : GoMap Team
  users : GoMap User
  prs : GoMap PullRequest
  userPRsIdx : GoMap (List String)
  deriving DecidableEq, Repr

/-- The source of randomness behind `rand.Shuffle`: some permutation of the
list it is given. -/
structure Rand where
  shuffle : List User → List User
  shuffle_perm : ∀ l, (shuffle l).Perm l

/-- The shuffle that leaves the list as it is. -/
def Rand.identity : Rand := ⟨fun l => l, fun l => List.Perm.refl l⟩

/-- The shuffle that reverses the list. -/
def Rand.reversing : Rand := ⟨List.reverse, fun l => List.reverse_perm l⟩

namespace MemoryStore

/-- Function `NewMemoryStore`. -/
def NewMemoryStore : MemoryStore :=
  { teams := [], users := [], prs := [], userPRsIdx := [] }

/-- The body of the loop of `SaveTeam`: the assignment
`s.users[member.UserID] = &models.User{...}`. -/
def materialize (s : MemoryStore) (teamName : String) (member : TeamMember) : MemoryStore :=
  let user : User := { ID := member.UserID, Username := member.Username,
                       TeamName := teamName, IsActive := member.IsActive }
  { s with users := s.users.set member.UserID user }

/-- Method `SaveTeam`. -/
def SaveTeam (s : MemoryStore) (team : Team) : Option Err × MemoryStore :=
  match s.teams.get team.Name with
  | some _ => (some Err.ErrTeamExists, s)
  | none =>
    let s1 := { s with teams := s.teams.set team.Name team }
    (none, team.Members.foldl (fun st member => materialize st team.Name member) s1)

/-- Method `GetTeam`. -/
def GetTeam (s : MemoryStore) (name : String) : Except Err Team :=
  match s.teams.get name with
  | none => .error Err.ErrTeamNotFound
  | some team => .ok team

/-- Method `GetUser`. -/
def GetUser (s : MemoryStore) (id : String) : Except Err User :=
  match s.users.get id with
  | none => .error Err.ErrUserNotFound
  | some user => .ok user

/-- Method `SetUserActive`. -/
def SetUserActive (s : MemoryStore) (id : String) (active : Bool) :
    Except Err User × MemoryStore :=
  match s.users.get id with
  | none => (.error Err.ErrUserNotFound, s)
  | some user =>
    let user1 := { user with IsActive := active }
    (.ok user1, { s with users := s.users.set id user1 })

/-- Method `addIndexLockHeld`. -/
def addIndexLockHeld (s : MemoryStore) (userID prID : String) : MemoryStore :=
  let idx1 := match s.userPRsIdx.get userID with
    | some _ => s.userPRsIdx
    | none => s.userPRsIdx.set userID []
  { s with userPRsIdx := idx1.set userID (setAdd ((idx1.get userID).getD []) prID) }

/-- Method `SavePullRequest`. -/
def SavePullRequest (s : MemoryStore) (pr : PullRequest) : Option Err × MemoryStore :=
  match s.prs.get pr.ID with
  | some _ => (some Err.ErrPRExists, s)
  | none =>
    let s1 := { s with prs := s.prs.set pr.ID pr }
    (none, pr.AssignedReviewers.foldl (fun st reviewerID => addIndexLockHeld st reviewerID pr.ID) s1)

/-- The body of the first loop of `UpdatePullRequest`: drop `prID` from the
index entry of `oldReviewerID` when there is one. -/
def dropIndex (s : MemoryStore) (oldReviewerID prID : String) : MemoryStore :=
  match s.userPRsIdx.get oldReviewerID with
  | some idx => { s with userPRsIdx := s.userPRsIdx.set oldReviewerID (setDelete idx prID) }
  | none => s

/-- Method `UpdatePullRequest`. -/
def UpdatePullRequest (s : MemoryStore) (pr : PullRequest) : Option Err × MemoryStore :=
  match s.prs.get pr.ID with
  | none => (some Err.ErrPRNotFound, s)
  | some stored =>
    let s1 := stored.AssignedReviewers.foldl (fun st oldReviewerID => dropIndex st oldReviewerID pr.ID) s
    let s2 := { s1 with prs := s1.prs.set pr.ID pr }
    (none, pr.AssignedReviewers.foldl (fun st reviewerID => addIndexLockHeld st reviewerID pr.ID) s2)

/-- Method `GetPullRequest`. -/
def GetPullRequest (s : MemoryStore) (id : String) : Except Err PullRequest :=
  match s.prs.get id with
  | none => .error Err.ErrPRNotFound
  | some pr => .ok pr

/-- Method `ListReviewAssignments`. The entries of the index set are visited
in list order, which stands for one of the iteration orders of the Go map. -/
def ListReviewAssignments (s : MemoryStore) (userID : String) :
    Except Err (List PullRequestShort) :=
  match s.users.get userID with
  | none => .error Err.ErrUserNotFound
  | some _ =>
    let prIDs := (s.userPRsIdx.get userID).getD []
    let result := prIDs.filterMap (fun prID => (s.prs.get prID).map PullRequest.ToShort)
    .ok (sortByID result)

/-- The body of the candidate loop of `SelectRandomActiveMembers`: the user
appended for one member entry, if any. -/
def candidateOf (s : MemoryStore) (exclude : List String) (member : TeamMember) : Option User :=
  if member.UserID ∈ exclude then none
  else if !member.IsActive then none
  else match s.users.get member.UserID with
    | some user => if user.IsActive then some user else none
    | none => none

/-- Method `SelectRandomActiveMembers`; `exclude` is the key set of the Go
map and `limit` is a Go `int`. -/
def SelectRandomActiveMembers (s : MemoryStore) (rand : Rand) (teamName : String)
    (exclude : List String) (limit : Int) : Except Err (List User) :=
  match s.teams.get teamName with
  | none => .error Err.ErrTeamNotFound
  | some team =>
    let candidates := rand.shuffle (team.Members.filterMap (candidateOf s exclude))
    if (candidates.length : Int) > limit then
      if limit < 0 then .error Err.PanicSliceBounds
      else .ok (candidates.take limit.toNat)
    else .ok candidates

end MemoryStore

/-! ## Package service -/

namespace Service

open MemoryStore

/-- Method `Service.CreateTeam`; the result `none` is a nil pointer. -/
def CreateTeam (s : MemoryStore) (team : Team) : Except Err (Option Team) × MemoryStore :=
  match SaveTeam s team with
  | (some err, s1) => (.error err, s1)
  | (none, s1) => (.ok (GetTeam s1 team.Name).toOption, s1)

/-- Method `Service.GetTeam`. -/
def GetTeam (s : MemoryStore) (name : String) : Except Err Team :=
  MemoryStore.GetTeam s name

/-- Method `Service.SetUserActive`. -/
def SetUserActive (s : MemoryStore) (userID : String) (active : Bool) :
    Except Err User × MemoryStore :=
  match MemoryStore.SetUserActive s userID active with
  | (.error err, s1) => (.error err, s1)
  | (.ok user, s1) => (.ok user, s1)

/-- The loop of `CreatePullRequest` collecting the ids of the selected users. -/
def reviewerIDs (reviewers : List User) : List String :=
  reviewers.map (fun reviewer => reviewer.ID)

/-- Method `Service.CreatePullRequest`; the result `none` is a nil pointer. -/
def CreatePullRequest (s : MemoryStore) (rand : Rand) (now : Nat) (pr : PullRequest) :
    Except Err (Option PullRequest) × MemoryStore :=
  match GetUser s pr.AuthorID with
  | .error err => (.error err, s)
  | .ok author =>
    let exclude := [pr.AuthorID]
    let selected : Except Err (List User) :=
      match SelectRandomActiveMembers s rand author.TeamName exclude 2 with
      | .error err => if err ≠ Err.ErrTeamNotFound then .error err else .ok []
      | .ok reviewers => .ok reviewers
    match selected with
    | .error err => (.error err, s)
    | .ok reviewers =>
      let pr1 := { pr with Status := PRStatusOpen, AssignedReviewers := reviewerIDs reviewers,
                           CreatedAt := some now }
      match SavePullRequest s pr1 with
      | (some err, s1) => (.error err, s1)
      | (none, s1) => (.ok (GetPullRequest s1 pr1.ID).toOption, s1)

/-- Method `Service.MergePullRequest`. -/
def MergePullRequest (s : MemoryStore) (now : Nat) (id : String) :
    Except Err PullRequest × MemoryStore :=
  match GetPullRequest s id with
  | .error err => (.error err, s)
  | .ok pr =>
    if pr.Status = PRStatusMerged then (.ok pr, s)
    else
      let pr1 := { pr with Status := PRStatusMerged, MergedAt := some now }
      match UpdatePullRequest s pr1 with
      | (some err, s1) => (.error err, s1)
      | (none, s1) => (.ok pr1, s1)

/-- The search loop of `ReassignReviewer`: the first position holding
`oldReviewerID`, or `none` for the index `-1`. -/
def findReviewer (reviewers : List String) (oldReviewerID : String) : Option Nat :=
  match reviewers with
  | [] => none
  | reviewerID :: rest =>
    if reviewerID = oldReviewerID then some 0
    else (findReviewer rest oldReviewerID).map (fun i => i + 1)

/-- Method `Service.ReassignReviewer`. -/
def ReassignReviewer (s : MemoryStore) (rand : Rand) (prID oldReviewerID : String) :
    Except Err (PullRequest × String) × MemoryStore :=
  match GetPullRequest s prID with
  | .error err => (.error err, s)
  | .ok pr =>
    if pr.Status = PRStatusMerged then (.error Err.ErrPRMerged, s)
    else
      match findReviewer pr.AssignedReviewers oldReviewerID with
      | none => (.error Err.ErrReviewerMissing, s)
      | some idx =>
        match GetUser s oldReviewerID with
        | .error err => (.error err, s)
        | .ok reviewer =>
          let exclude := oldReviewerID :: pr.AssignedReviewers
          match SelectRandomActiveMembers s rand reviewer.TeamName exclude 1 with
          | .error err => (.error err, s)
          | .ok [] => (.error Err.ErrNoCandidate, s)
          | .ok (replacement :: _) =>
            let pr1 := { pr with AssignedReviewers := pr.AssignedReviewers.set idx replacement.ID }
            match UpdatePullRequest s pr1 with
            | (some err, s1) => (.error err, s1)
            | (none, s1) => (.ok (pr1, replacement.ID), s1)

/-- Method `Service.ListUserReviews`. -/
def ListUserReviews (s : MemoryStore) (userID : String) : Except Err (List PullRequestShort) :=
  ListReviewAssignments s userID

end Service

/-! ## Reachable states, invariants and specification-side definitions -/

/-- The index entry of user `r` holds pull-request id `p`; an absent entry
holds nothing. -/
def idxMem (s : MemoryStore) (r p : String) : Prop :=
  p ∈ (s.userPRsIdx.get r).getD []

instance (s : MemoryStore) (r p : String) : Decidable (idxMem s r p) := by
  unfold idxMem; infer_instance

/-- Every record is stored under its own identifier and no map holds a key
twice. -/
structure Keyed (s : MemoryStore) : Prop where
  users : ∀ k u, s.users.get k = some u → u.ID = k
  prs : ∀ k p, s.prs.get k = some p → p.ID = k
  prsNodup : s.prs.keys.Nodup

/-- Reviewer-index consistency: the index holds exactly the pairs
(reviewer, pull request) of the stored pull requests. -/
def IndexConsistent (s : MemoryStore) : Prop :=
  (∀ k P, s.prs.get k = some P → ∀ r ∈ P.AssignedReviewers, idxMem s r P.ID) ∧
  (∀ r p, idxMem s r p → ∃ P, s.prs.get p = some P ∧ P.ID = p ∧ r ∈ P.AssignedReviewers)

/-- No index entry holds a pull-request id twice (the entries are Go sets). -/
def IdxNodup (s : MemoryStore) : Prop :=
  ∀ r e, s.userPRsIdx.get r = some e → e.Nodup

/-- The strict order of `sort.Slice` in `ListReviewAssignments`:
`a.ID < b.ID` on the character sequences of the ids. -/
def idLT (a b : PullRequestShort) : Prop := a.ID.data < b.ID.data

/-- Specification of the short projection of a pull request, written from the
data model and not from `ToShort`: the id, the name, the author id and the
status of the pull request, field by field. -/
def shortProjection (P : PullRequest) : PullRequestShort :=
  { ID := P.ID, Name := P.Name, AuthorID := P.AuthorID, Status := P.Status }

/-- Specification of the review list of a user: the short projections (id,
name, author id, status) of all stored pull requests whose `AssignedReviewers`
contains `userID`, sorted by pull-request id. It does not use `ToShort`. -/
def reviewsOf (s : MemoryStore) (userID : String) : List PullRequestShort :=
  sortByID ((s.prs.values.filter
    (fun P => decide (userID ∈ P.AssignedReviewers))).map shortProjection)

/-- Every reviewer of every stored pull request is a stored user. -/
def ReviewersStored (s : MemoryStore) : Prop :=
  ∀ k P, s.prs.get k = some P → ∀ r ∈ P.AssignedReviewers, ∃ u, s.users.get r = some u

/-- Every team is stored under its own name. -/
def TeamsKeyed (s : MemoryStore) : Prop :=
  ∀ tn T, s.teams.get tn = some T → T.Name = tn

/-- Every stored user names a stored team that lists the id of the user. -/
def UsersInTeams (s : MemoryStore) : Prop :=
  ∀ k u, s.users.get k = some u →
    ∃ T, s.teams.get u.TeamName = some T ∧ ∃ m ∈ T.Members, m.UserID = k

/-- Every member of every stored team is a stored user. -/
def MembersStored (s : MemoryStore) : Prop :=
  ∀ tn T, s.teams.get tn = some T → ∀ m ∈ T.Members, ∃ u, s.users.get m.UserID = some u

/-- The time stamps and the status of every stored pull request fit together:
`CreatedAt` is set, the status is OPEN or MERGED, and `MergedAt` is set exactly
when the status is MERGED. -/
def StampsConsistent (s : MemoryStore) : Prop :=
  ∀ k P, s.prs.get k = some P →
    P.CreatedAt ≠ none ∧ (P.Status = PRStatusOpen ∨ P.Status = PRStatusMerged) ∧
    (P.MergedAt ≠ none ↔ P.Status = PRStatusMerged)

/-- The last entry of a member list that carries the user id `k`. -/
def lastEntry (members : List TeamMember) (k : String) : Option TeamMember :=
  match members with
  | [] => none
  | m :: rest =>
    match lastEntry rest k with
    | some x => some x
    | none => if m.UserID = k then some m else none

/-- The user record `SaveTeam` writes for a member entry of team `teamName`. -/
def userOf (teamName : String) (m : TeamMember) : User :=
  { ID := m.UserID, Username := m.Username, TeamName := teamName, IsActive := m.IsActive }

/-- One call of a mutating method of the store, with its arguments. -/
inductive StoreOp
  | saveTeam (team : Team)
  | setUserActive (id : String) (active : Bool)
  | savePullRequest (pr : PullRequest)
  | updatePullRequest (pr : PullRequest)

/-- The store after one call of a mutating method of the store. -/
def storeStep (s : MemoryStore) : StoreOp → MemoryStore
  | .saveTeam team => (MemoryStore.SaveTeam s team).2
  | .setUserActive id active => (MemoryStore.SetUserActive s id active).2
  | .savePullRequest pr => (MemoryStore.SavePullRequest s pr).2
  | .updatePullRequest pr => (MemoryStore.UpdatePullRequest s pr).2

/-- States of the store reachable from `NewMemoryStore` through its four
mutating methods, called with any arguments, whether they succeed or fail. -/
inductive StoreReachable : MemoryStore → Prop
  | init : StoreReachable MemoryStore.NewMemoryStore
  | saveTeam {s : MemoryStore} (team : Team) :
      StoreReachable s → StoreReachable (MemoryStore.SaveTeam s team).2
  | setUserActive {s : MemoryStore} (id : String) (active : Bool) :
      StoreReachable s → StoreReachable (MemoryStore.SetUserActive s id active).2
  | savePullRequest {s : MemoryStore} (pr : PullRequest) :
      StoreReachable s → StoreReachable (MemoryStore.SavePullRequest s pr).2
  | updatePullRequest {s : MemoryStore} (pr : PullRequest) :
      StoreReachable s → StoreReachable (MemoryStore.UpdatePullRequest s pr).2

/-- A member entry is eligible: its id is not excluded, the entry is marked
active and the live user record exists and is marked active. -/
def eligible (s : MemoryStore) (exclude : List String) (member : TeamMember) : Bool :=
  decide (member.UserID ∉ exclude) && member.IsActive &&
    (match s.users.get member.UserID with
     | some user => user.IsActive
     | none => false)

namespace Service

/-- The record `CreatePullRequest` hands to `SavePullRequest`: the request
with status OPEN, the given reviewers and the creation instant. -/
def opened (pr : PullRequest) (assigned : List String) (now : Nat) : PullRequest :=
  { pr with Status := PRStatusOpen, AssignedReviewers := assigned, CreatedAt := some now }

/-- One call of the service, with its arguments and the values the clock and
the random source give during the call. -/
inductive Op
  | createTeam (team : Team)
  | getTeam (name : String)
  | setUserActive (userID : String) (active : Bool)
  | createPullRequest (rand : Rand) (now : Nat) (pr : PullRequest)
  | mergePullRequest (now : Nat) (id : String)
  | reassignReviewer (rand : Rand) (prID oldReviewerID : String)
  | listUserReviews (userID : String)

/-- The store after one call of the service; the two reads leave it as it
is. -/
def step (s : MemoryStore) : Op → MemoryStore
  | .createTeam team => (CreateTeam s team).2
  | .getTeam _ => s
  | .setUserActive userID active => (SetUserActive s userID active).2
  | .createPullRequest rand now pr => (CreatePullRequest s rand now pr).2
  | .mergePullRequest now id => (MergePullRequest s now id).2
  | .reassignReviewer rand prID oldReviewerID => (ReassignReviewer s rand prID oldReviewerID).2
  | .listUserReviews _ => s

/-- States reachable from the empty store through calls of the service. -/
inductive Reachable : MemoryStore → Prop
  | init : Reachable MemoryStore.NewMemoryStore
  | step {s : MemoryStore} (op : Op) : Reachable s → Reachable (step s op)

/-- The store after a sequence of calls of the service. -/
def run (s : MemoryStore) (ops : List Op) : MemoryStore :=
  ops.foldl step s

/-- The record `handleCreatePR` of the transport layer passes to
`CreatePullRequest`: only id, name and author are filled in, the other fields
have their Go zero values. -/
def request (id name author : String) : PullRequest :=
  { ID := id, Name := name, AuthorID := author, Status := "", AssignedReviewers := [],
    CreatedAt := none, MergedAt := none }

/-- The call is one the transport layer makes: a `CreatePullRequest` gets a
record built by `request`. -/
def Op.fromTransport : Op → Prop
  | .createPullRequest _ _ pr => ∃ id name author, pr = request id name author
  | _ => True

/-- States reachable from the empty store through the calls the transport
layer makes. -/
inductive ExternalReachable : MemoryStore → Prop
  | init : ExternalReachable MemoryStore.NewMemoryStore
  | step {s : MemoryStore} (op : Op) :
      Op.fromTransport op → ExternalReachable s → ExternalReachable (step s op)

end Service

/-- One call of the store or of the service. -/
inductive AnyOp
  | store (op : StoreOp)
  | service (op : Service.Op)

/-- The store after one call of the store or of the service. -/
def anyStep (s : MemoryStore) : AnyOp → MemoryStore
  | .store op => storeStep s op
  | .service op => Service.step s op

/-- The store after a sequence of calls of the store and of the service. -/
def runAny (s : MemoryStore) (ops : List AnyOp) : MemoryStore :=
  ops.foldl anyStep s

/-! ## Reference-level view of `GetTeam`

The definitions above identify a slice with the sequence of its elements.
The ones below keep the backing array of the member slice of a team apart
from the `Team` struct that refers to it, as far as `GetTeam` needs it. -/

namespace Ref

/-- A Go slice value: the address of its backing array and its length. Two
slice values with the same address share their elements. -/
structure Slice where
  addr : Nat
  len : Nat
  deriving DecidableEq, Repr

/-- The struct `models.Team` as a Go value: the name and the slice header of
`Members`. -/
structure TeamRec where
  Name : String
  Members : Slice
  deriving DecidableEq, Repr

/-- The part of the Go heap behind the team map: the backing arrays of the
member slices, by address, and the map `teams` of the store, each entry
holding its own `Team` struct. -/
structure Heap where
  arrays : List (List TeamMember)
  teams : GoMap TeamRec
  deriving DecidableEq, Repr

/-- Method `GetTeam`: `copyTeam := *team` copies the struct, that is the name
and the slice header, and returns a pointer to the copy. -/
def GetTeam (h : Heap) (name : String) : Except Err TeamRec :=
  match h.teams.get name with
  | none => .error Err.ErrTeamNotFound
  | some team => .ok team

/-- The statement `t.Members[i] = member` of a caller holding the team value
`t`; an index outside the slice panics and writes nothing. -/
def writeMember (h : Heap) (t : TeamRec) (i : Nat) (member : TeamMember) : Heap :=
  if i < t.Members.len then
    { h with arrays := h.arrays.modify (fun a => a.set i member) t.Members.addr }
  else h

/-- The team a `Team` struct stands for: its name and the elements its slice
refers to. -/
def value (h : Heap) (t : TeamRec) : Team :=
  { Name := t.Name, Members := ((h.arrays.get? t.Members.addr).getD []).take t.Members.len }

/-- The result of `GetTeam` as the caller reads it. -/
def readTeam (h : Heap) (name : String) : Except Err Team :=
  match GetTeam h name with
  | .error err => .error err
  | .ok t => .ok (value h t)

end Ref

/-! ## Example data -/

namespace Example

/-- Team "core": A and B active, C inactive. -/
def core : Team :=
  { Name := "core",
    Members := [⟨"A", "alice", true⟩, ⟨"B", "bob", true⟩, ⟨"C", "carol", false⟩] }

/-- The store after creating team "core" in the empty store. -/
def coreStore : MemoryStore := (Service.CreateTeam MemoryStore.NewMemoryStore core).2

/-- The store after saving team "core" in the empty store. -/
def savedCore : MemoryStore := (MemoryStore.SaveTeam MemoryStore.NewMemoryStore core).2

/-- Pull request "PR1" of A, open and reviewed by B. -/
def reviewed : PullRequest :=
  { ID := "PR1", Name := "first", AuthorID := "A", Status := "OPEN",
    AssignedReviewers := ["B"], CreatedAt := some 1, MergedAt := none }

/-- The store after saving team "core" and then pull request `reviewed`. -/
def reviewedStore : MemoryStore := (MemoryStore.SavePullRequest savedCore reviewed).2

/-- Pull request "PR1" after its merge at instant 9. -/
def merged : PullRequest := { reviewed with Status := "MERGED", MergedAt := some 9 }

/-- The store after updating "PR1" to its merged record. -/
def mergedStore : MemoryStore := (MemoryStore.UpdatePullRequest reviewedStore merged).2

/-- Pull request "PR1" after B is replaced by A. -/
def reassigned : PullRequest := { reviewed with AssignedReviewers := ["A"] }

/-- The store after reassigning B on "PR1" under the identity shuffle. -/
def reassignedStore : MemoryStore :=
  (Service.ReassignReviewer reviewedStore Rand.identity "PR1" "B").2

/-- The request for pull request "PR1" authored by A, as the transport layer
builds it: only id, name and author are filled in. -/
def pr1 : PullRequest :=
  { ID := "PR1", Name := "first", AuthorID := "A", Status := "", AssignedReviewers := [],
    CreatedAt := none, MergedAt := none }

/-- Team "dup": X, and Y listed twice. -/
def dup : Team :=
  { Name := "dup",
    Members := [⟨"X", "xena", true⟩, ⟨"Y", "yuri", true⟩, ⟨"Y", "yuri", true⟩] }

/-- The store after saving team "dup" in the empty store. -/
def dupStore : MemoryStore := (MemoryStore.SaveTeam MemoryStore.NewMemoryStore dup).2

/-- The request for a pull request authored by X of team "dup". -/
def prX : PullRequest :=
  { ID := "PR1", Name := "first", AuthorID := "X", Status := "", AssignedReviewers := [],
    CreatedAt := none, MergedAt := none }

/-- Team "pair": A and B, both active. -/
def pair : Team :=
  { Name := "pair", Members := [⟨"A", "alice", true⟩, ⟨"B", "bob", true⟩] }

/-- The store after creating team "pair" and then pull request "PR1" authored
by A at instant 1, whatever the shuffle. -/
def pairStore (rand : Rand) : MemoryStore :=
  (Service.CreatePullRequest (Service.CreateTeam MemoryStore.NewMemoryStore pair).2 rand 1 pr1).2

/-- The store holding team "core" and "PR1" reviewed by B, after A is
deactivated: no member of "core" but B is active. -/
def quietStore : MemoryStore := (MemoryStore.SetUserActive reviewedStore "A" false).2

/-- Team "red": the single member U. -/
def red : Team := { Name := "red", Members := [⟨"U", "uma", true⟩] }

/-- Team "blue": the single member U, too. -/
def blue : Team := { Name := "blue", Members := [⟨"U", "uma", true⟩] }

/-- The store after saving team "red" and then team "blue". -/
def redBlueStore : MemoryStore :=
  (MemoryStore.SaveTeam (MemoryStore.SaveTeam MemoryStore.NewMemoryStore red).2 blue).2

/-- Team "twice": the id Y with two different entries. -/
def twice : Team :=
  { Name := "twice", Members := [⟨"Y", "yuri", true⟩, ⟨"Y", "yara", false⟩] }

/-- The heap after saving team "core": its members lie in the array at
address 0 and the stored `Team` struct refers to them. -/
def coreHeap : Ref.Heap :=
  { arrays := [core.Members], teams := [("core", ⟨"core", ⟨0, 3⟩⟩)] }

/-- The store after creating team "core" and then "PR1" authored by A through
the calls of the transport layer, under the identity shuffle at instant 1. -/
def servedStore : MemoryStore :=
  (Service.CreatePullRequest coreStore Rand.identity 1 (Service.request "PR1" "first" "A")).2

end Example

end Avito

namespace Avito

/-! ## Go maps -/

namespace GoMap

variable {V : Type}

theorem get_set (m : GoMap V) (k k' : String) (v : V) :
    (m.set k v).get k' = if k = k' then some v else m.get k' := by
  induction m with
  | nil => simp [set, get]
  | cons e t ih =>
    obtain ⟨a, b⟩ := e
    by_cases h : a = k
    · subst h
      by_cases h2 : a = k' <;> simp [set, get, h2]
    · by_cases h2 : a = k'
      · subst h2
        have h3 : ¬ k = a := fun e => h e.symm
        simp [set, get, h, h3]
      · simp [set, get, h, h2, ih]

theorem get_set_self (m : GoMap V) (k : String) (v : V) : (m.set k v).get k = some v := by
  simp [get_set]

theorem get_set_of_ne (m : GoMap V) {k k' : String} (v : V) (h : k ≠ k') :
    (m.set k v).get k' = m.get k' := by
  simp [get_set, h]

theorem mem_keys_set (m : GoMap V) (k k' : String) (v : V) :
    k' ∈ (m.set k v).keys ↔ k' = k ∨ k' ∈ m.keys := by
  induction m with
  | nil => simp [set, keys]
  | cons e t ih =>
    obtain ⟨a, b⟩ := e
    by_cases h : a = k
    · subst h
      simp [set, keys]
    · have ih2 : k' ∈ List.map Prod.fst (set t k v) ↔ k' = k ∨ k' ∈ List.map Prod.fst t := ih
      simp only [set, h, if_false, keys, List.map_cons, List.mem_cons, ih2]
      tauto

theorem nodup_keys_set (m : GoMap V) (k : String) (v : V) (h : m.keys.Nodup) :
    (m.set k v).keys.Nodup := by
  induction m with
  | nil => simp [set, keys]
  | cons e t ih =>
    obtain ⟨a, b⟩ := e
    have h1 : a ∉ keys t ∧ (keys t).Nodup := by simpa [keys] using h
    by_cases ha : a = k
    · subst ha
      simpa [set, keys] using h
    · have h2 : a ∉ keys (set t k v) := by
        rw [mem_keys_set]
        rintro (e | e)
        · exact ha e
        · exact h1.1 e
      have h3 := ih h1.2
      simp only [set, ha, if_false, keys, List.map_cons, List.nodup_cons]
      exact ⟨h2, h3⟩

theorem get_eq_none_of_not_mem_keys (m : GoMap V) (k : String) (h : k ∉ m.keys) :
    m.get k = none := by
  induction m with
  | nil => simp [get]
  | cons e t ih =>
    obtain ⟨a, b⟩ := e
    have h1 : ¬ k = a ∧ k ∉ keys t := by simpa [keys] using h
    have h2 : ¬ a = k := fun e => h1.1 e.symm
    simp [get, h2, ih h1.2]

theorem mem_iff_get (m : GoMap V) (h : m.keys.Nodup) (k : String) (v : V) :
    (k, v) ∈ m ↔ m.get k = some v := by
  induction m with
  | nil => simp [get]
  | cons e t ih =>
    obtain ⟨a, b⟩ := e
    have h1 : a ∉ keys t ∧ (keys t).Nodup := by simpa [keys] using h
    by_cases ha : a = k
    · subst ha
      have h2 : ∀ w, (a, w) ∉ t := fun w hw => h1.1 (List.mem_map_of_mem Prod.fst hw)
      simp only [get, if_true, List.mem_cons, Prod.mk.injEq, true_and, Option.some.injEq]
      constructor
      · rintro (e | e)
        · exact e.symm
        · exact absurd e (h2 v)
      · intro e
        exact Or.inl e.symm
    · have h3 : ¬ k = a := fun e => ha e.symm
      simp [get, ha, h3, ih h1.2]

end GoMap

theorem mem_setAdd (e : List String) (k x : String) : x ∈ setAdd e k ↔ x ∈ e ∨ x = k := by
  unfold setAdd
  by_cases h : k ∈ e
  · simp only [h, if_true]
    constructor
    · exact Or.inl
    · rintro (h1 | h1)
      · exact h1
      · exact h1 ▸ h
  · simp [h]

theorem mem_setDelete (e : List String) (k x : String) : x ∈ setDelete e k ↔ x ∈ e ∧ x ≠ k := by
  simp [setDelete]

end Avito

namespace Avito

/-! ## Effect of the loop bodies of the store -/

theorem foldl_preserves {α σ : Type} (P : σ → Prop) (f : σ → α → σ)
    (h : ∀ s a, P s → P (f s a)) (l : List α) (s : σ) (hs : P s) : P (l.foldl f s) := by
  induction l generalizing s with
  | nil => exact hs
  | cons a t ih => exact ih (f s a) (h s a hs)

namespace MemoryStore

theorem materialize_teams (s : MemoryStore) (tn : String) (m : TeamMember) :
    (materialize s tn m).teams = s.teams := rfl

theorem materialize_prs (s : MemoryStore) (tn : String) (m : TeamMember) :
    (materialize s tn m).prs = s.prs := rfl

theorem materialize_idx (s : MemoryStore) (tn : String) (m : TeamMember) :
    (materialize s tn m).userPRsIdx = s.userPRsIdx := rfl

theorem materialize_users_get (s : MemoryStore) (tn : String) (m : TeamMember) (k : String) :
    (materialize s tn m).users.get k =
      if m.UserID = k then some ⟨m.UserID, m.Username, tn, m.IsActive⟩ else s.users.get k := by
  simp [materialize, GoMap.get_set]

theorem addIndex_teams (s : MemoryStore) (u q : String) :
    (addIndexLockHeld s u q).teams = s.teams := rfl

theorem addIndex_users (s : MemoryStore) (u q : String) :
    (addIndexLockHeld s u q).users = s.users := rfl

theorem addIndex_prs (s : MemoryStore) (u q : String) :
    (addIndexLockHeld s u q).prs = s.prs := rfl

theorem idxMem_addIndex (s : MemoryStore) (u q r p : String) :
    idxMem (addIndexLockHeld s u q) r p ↔ idxMem s r p ∨ (r = u ∧ p = q) := by
  unfold idxMem addIndexLockHeld
  cases h : s.userPRsIdx.get u with
  | none =>
    by_cases hr : u = r
    · subst hr
      simp [GoMap.get_set, h, mem_setAdd]
    · have hr2 : ¬ r = u := fun e => hr e.symm
      simp [GoMap.get_set, hr, hr2]
  | some e =>
    by_cases hr : u = r
    · subst hr
      simp [GoMap.get_set, h, mem_setAdd]
    · have hr2 : ¬ r = u := fun e => hr e.symm
      simp [GoMap.get_set, hr, hr2]

theorem dropIndex_teams (s : MemoryStore) (u q : String) :
    (dropIndex s u q).teams = s.teams := by
  unfold dropIndex; split <;> rfl

theorem dropIndex_users (s : MemoryStore) (u q : String) :
    (dropIndex s u q).users = s.users := by
  unfold dropIndex; split <;> rfl

theorem dropIndex_prs (s : MemoryStore) (u q : String) :
    (dropIndex s u q).prs = s.prs := by
  unfold dropIndex; split <;> rfl

theorem idxMem_dropIndex (s : MemoryStore) (u q r p : String) :
    idxMem (dropIndex s u q) r p ↔ idxMem s r p ∧ ¬ (r = u ∧ p = q) := by
  unfold idxMem dropIndex
  cases h : s.userPRsIdx.get u with
  | none =>
    by_cases hr : u = r
    · subst hr
      simp [h]
    · have hr2 : ¬ r = u := fun e => hr e.symm
      simp [hr2]
  | some e =>
    by_cases hr : u = r
    · subst hr
      simp [GoMap.get_set, h, mem_setDelete]
    · have hr2 : ¬ r = u := fun e => hr e.symm
      simp [GoMap.get_set, hr, hr2]

/-- The state after the indexing loop over `rs`. -/
theorem addLoop_frame (q : String) (rs : List String) (s : MemoryStore) :
    (rs.foldl (fun st r => addIndexLockHeld st r q) s).teams = s.teams ∧
    (rs.foldl (fun st r => addIndexLockHeld st r q) s).users = s.users ∧
    (rs.foldl (fun st r => addIndexLockHeld st r q) s).prs = s.prs := by
  induction rs generalizing s with
  | nil => exact ⟨rfl, rfl, rfl⟩
  | cons a t ih =>
    obtain ⟨h1, h2, h3⟩ := ih (addIndexLockHeld s a q)
    exact ⟨h1, h2, h3⟩

theorem idxMem_addLoop (q : String) (rs : List String) (s : MemoryStore) (r p : String) :
    idxMem (rs.foldl (fun st r => addIndexLockHeld st r q) s) r p ↔
      idxMem s r p ∨ (r ∈ rs ∧ p = q) := by
  induction rs generalizing s with
  | nil => simp
  | cons a t ih =>
    simp only [List.foldl_cons, ih, idxMem_addIndex, List.mem_cons]
    tauto

theorem dropLoop_frame (q : String) (rs : List String) (s : MemoryStore) :
    (rs.foldl (fun st r => dropIndex st r q) s).teams = s.teams ∧
    (rs.foldl (fun st r => dropIndex st r q) s).users = s.users ∧
    (rs.foldl (fun st r => dropIndex st r q) s).prs = s.prs := by
  induction rs generalizing s with
  | nil => exact ⟨rfl, rfl, rfl⟩
  | cons a t ih =>
    obtain ⟨h1, h2, h3⟩ := ih (dropIndex s a q)
    exact ⟨h1.trans (dropIndex_teams s a q), h2.trans (dropIndex_users s a q),
      h3.trans (dropIndex_prs s a q)⟩

theorem idxMem_dropLoop (q : String) (rs : List String) (s : MemoryStore) (r p : String) :
    idxMem (rs.foldl (fun st r => dropIndex st r q) s) r p ↔
      idxMem s r p ∧ ¬ (r ∈ rs ∧ p = q) := by
  induction rs generalizing s with
  | nil => simp
  | cons a t ih =>
    simp only [List.foldl_cons, ih, idxMem_dropIndex, List.mem_cons]
    tauto

theorem materializeLoop_frame (tn : String) (ms : List TeamMember) (s : MemoryStore) :
    (ms.foldl (fun st m => materialize st tn m) s).teams = s.teams ∧
    (ms.foldl (fun st m => materialize st tn m) s).prs = s.prs ∧
    (ms.foldl (fun st m => materialize st tn m) s).userPRsIdx = s.userPRsIdx := by
  induction ms generalizing s with
  | nil => exact ⟨rfl, rfl, rfl⟩
  | cons a t ih =>
    obtain ⟨h1, h2, h3⟩ := ih (materialize s tn a)
    exact ⟨h1, h2, h3⟩

end MemoryStore

end Avito

namespace Avito

/-! ## Effect of the store methods -/

namespace MemoryStore

theorem SaveTeam_prs (s : MemoryStore) (team : Team) : (SaveTeam s team).2.prs = s.prs := by
  unfold SaveTeam
  split
  · rfl
  · exact (materializeLoop_frame team.Name team.Members _).2.1

theorem SaveTeam_idx (s : MemoryStore) (team : Team) :
    (SaveTeam s team).2.userPRsIdx = s.userPRsIdx := by
  unfold SaveTeam
  split
  · rfl
  · exact (materializeLoop_frame team.Name team.Members _).2.2

theorem SetUserActive_prs (s : MemoryStore) (id : String) (active : Bool) :
    (SetUserActive s id active).2.prs = s.prs := by
  unfold SetUserActive
  split <;> rfl

theorem SetUserActive_idx (s : MemoryStore) (id : String) (active : Bool) :
    (SetUserActive s id active).2.userPRsIdx = s.userPRsIdx := by
  unfold SetUserActive
  split <;> rfl

theorem SetUserActive_teams (s : MemoryStore) (id : String) (active : Bool) :
    (SetUserActive s id active).2.teams = s.teams := by
  unfold SetUserActive
  split <;> rfl

theorem SavePullRequest_of_some {s : MemoryStore} {pr x : PullRequest}
    (h : s.prs.get pr.ID = some x) : SavePullRequest s pr = (some Err.ErrPRExists, s) := by
  simp [SavePullRequest, h]

theorem SavePullRequest_of_none {s : MemoryStore} {pr : PullRequest}
    (h : s.prs.get pr.ID = none) :
    SavePullRequest s pr = (none, pr.AssignedReviewers.foldl
      (fun st r => addIndexLockHeld st r pr.ID) { s with prs := s.prs.set pr.ID pr }) := by
  simp [SavePullRequest, h]

theorem SavePullRequest_teams (s : MemoryStore) (pr : PullRequest) :
    (SavePullRequest s pr).2.teams = s.teams := by
  cases h : s.prs.get pr.ID with
  | some x => rw [SavePullRequest_of_some h]
  | none => rw [SavePullRequest_of_none h]; exact (addLoop_frame _ _ _).1

theorem SavePullRequest_users (s : MemoryStore) (pr : PullRequest) :
    (SavePullRequest s pr).2.users = s.users := by
  cases h : s.prs.get pr.ID with
  | some x => rw [SavePullRequest_of_some h]
  | none => rw [SavePullRequest_of_none h]; exact (addLoop_frame _ _ _).2.1

theorem SavePullRequest_prs_of_none {s : MemoryStore} {pr : PullRequest}
    (h : s.prs.get pr.ID = none) : (SavePullRequest s pr).2.prs = s.prs.set pr.ID pr := by
  rw [SavePullRequest_of_none h]; exact (addLoop_frame _ _ _).2.2

theorem idxMem_SavePullRequest_of_none {s : MemoryStore} {pr : PullRequest}
    (h : s.prs.get pr.ID = none) (r p : String) :
    idxMem (SavePullRequest s pr).2 r p ↔
      idxMem s r p ∨ (r ∈ pr.AssignedReviewers ∧ p = pr.ID) := by
  rw [SavePullRequest_of_none h, idxMem_addLoop]
  rfl

theorem UpdatePullRequest_of_none {s : MemoryStore} {pr : PullRequest}
    (h : s.prs.get pr.ID = none) : UpdatePullRequest s pr = (some Err.ErrPRNotFound, s) := by
  simp [UpdatePullRequest, h]

theorem UpdatePullRequest_of_some {s : MemoryStore} {pr stored : PullRequest}
    (h : s.prs.get pr.ID = some stored) :
    UpdatePullRequest s pr = (none, pr.AssignedReviewers.foldl
      (fun st r => addIndexLockHeld st r pr.ID)
      { (stored.AssignedReviewers.foldl (fun st r => dropIndex st r pr.ID) s) with
        prs := (stored.AssignedReviewers.foldl (fun st r => dropIndex st r pr.ID) s).prs.set
          pr.ID pr }) := by
  simp [UpdatePullRequest, h]

theorem UpdatePullRequest_teams (s : MemoryStore) (pr : PullRequest) :
    (UpdatePullRequest s pr).2.teams = s.teams := by
  cases h : s.prs.get pr.ID with
  | none => rw [UpdatePullRequest_of_none h]
  | some x =>
    rw [UpdatePullRequest_of_some h]
    exact (addLoop_frame _ _ _).1.trans (dropLoop_frame _ _ _).1

theorem UpdatePullRequest_users (s : MemoryStore) (pr : PullRequest) :
    (UpdatePullRequest s pr).2.users = s.users := by
  cases h : s.prs.get pr.ID with
  | none => rw [UpdatePullRequest_of_none h]
  | some x =>
    rw [UpdatePullRequest_of_some h]
    exact (addLoop_frame _ _ _).2.1.trans (dropLoop_frame _ _ _).2.1

theorem UpdatePullRequest_prs_of_some {s : MemoryStore} {pr stored : PullRequest}
    (h : s.prs.get pr.ID = some stored) :
    (UpdatePullRequest s pr).2.prs = s.prs.set pr.ID pr := by
  rw [UpdatePullRequest_of_some h]
  refine (addLoop_frame _ _ _).2.2.trans ?_
  show GoMap.set _ pr.ID pr = _
  rw [(dropLoop_frame _ _ _).2.2]

theorem idxMem_UpdatePullRequest_of_some {s : MemoryStore} {pr stored : PullRequest}
    (h : s.prs.get pr.ID = some stored) (r p : String) :
    idxMem (UpdatePullRequest s pr).2 r p ↔
      (idxMem s r p ∧ ¬ (r ∈ stored.AssignedReviewers ∧ p = pr.ID)) ∨
        (r ∈ pr.AssignedReviewers ∧ p = pr.ID) := by
  rw [UpdatePullRequest_of_some h, idxMem_addLoop]
  have h2 : idxMem { (stored.AssignedReviewers.foldl (fun st r => dropIndex st r pr.ID) s) with
      prs := (stored.AssignedReviewers.foldl (fun st r => dropIndex st r pr.ID) s).prs.set
        pr.ID pr } r p ↔
      idxMem (stored.AssignedReviewers.foldl (fun st r => dropIndex st r pr.ID) s) r p :=
    Iff.rfl
  rw [h2, idxMem_dropLoop]

end MemoryStore

/-! ## Invariants of the reachable states -/

open MemoryStore

theorem keyed_init : Keyed NewMemoryStore :=
  ⟨fun k u h => by simp [NewMemoryStore, GoMap.get] at h,
   fun k p h => by simp [NewMemoryStore, GoMap.get] at h,
   by simp [NewMemoryStore, GoMap.keys]⟩

theorem keyed_materialize (tn : String) (m : TeamMember) (s : MemoryStore) (h : Keyed s) :
    Keyed (materialize s tn m) := by
  refine ⟨?_, h.prs, h.prsNodup⟩
  intro k u hu
  rw [materialize_users_get] at hu
  by_cases hk : m.UserID = k
  · simp only [hk, if_true, Option.some.injEq] at hu
    rw [← hu]
  · simp only [hk, if_false] at hu
    exact h.users k u hu

theorem keyed_SaveTeam (s : MemoryStore) (team : Team) (h : Keyed s) :
    Keyed (SaveTeam s team).2 := by
  unfold SaveTeam
  split
  · exact h
  · exact foldl_preserves Keyed _ (fun st m hst => keyed_materialize team.Name m st hst) _ _
      ⟨h.users, h.prs, h.prsNodup⟩

theorem keyed_SetUserActive (s : MemoryStore) (id : String) (active : Bool) (h : Keyed s) :
    Keyed (SetUserActive s id active).2 := by
  unfold SetUserActive
  split
  · exact h
  · rename_i user hu
    refine ⟨?_, h.prs, h.prsNodup⟩
    intro k u hk
    simp only [GoMap.get_set] at hk
    by_cases e : id = k
    · simp only [e, if_true, Option.some.injEq] at hk
      rw [← hk]
      exact e ▸ h.users id user hu
    · simp only [e, if_false] at hk
      exact h.users k u hk

theorem keyed_set_prs (s s1 : MemoryStore) (pr : PullRequest) (h : Keyed s)
    (hu : s1.users = s.users) (hp : s1.prs = s.prs.set pr.ID pr) : Keyed s1 := by
  refine ⟨?_, ?_, ?_⟩
  · rw [hu]; exact h.users
  · intro k p hk
    rw [hp, GoMap.get_set] at hk
    by_cases e : pr.ID = k
    · simp only [e, if_true, Option.some.injEq] at hk
      rw [← hk]; exact e
    · simp only [e, if_false] at hk
      exact h.prs k p hk
  · rw [hp]; exact GoMap.nodup_keys_set _ _ _ h.prsNodup

theorem keyed_SavePullRequest (s : MemoryStore) (pr : PullRequest) (h : Keyed s) :
    Keyed (SavePullRequest s pr).2 := by
  cases hg : s.prs.get pr.ID with
  | some x => rw [SavePullRequest_of_some hg]; exact h
  | none =>
    exact keyed_set_prs s _ pr h (SavePullRequest_users s pr) (SavePullRequest_prs_of_none hg)

theorem keyed_UpdatePullRequest (s : MemoryStore) (pr : PullRequest) (h : Keyed s) :
    Keyed (UpdatePullRequest s pr).2 := by
  cases hg : s.prs.get pr.ID with
  | none => rw [UpdatePullRequest_of_none hg]; exact h
  | some x =>
    exact keyed_set_prs s _ pr h (UpdatePullRequest_users s pr) (UpdatePullRequest_prs_of_some hg)

theorem StoreReachable.keyed {s : MemoryStore} (h : StoreReachable s) : Keyed s := by
  induction h with
  | init => exact keyed_init
  | saveTeam team _ ih => exact keyed_SaveTeam _ team ih
  | setUserActive id active _ ih => exact keyed_SetUserActive _ id active ih
  | savePullRequest pr _ ih => exact keyed_SavePullRequest _ pr ih
  | updatePullRequest pr _ ih => exact keyed_UpdatePullRequest _ pr ih

theorem indexConsistent_of_frame {s s1 : MemoryStore} (h : IndexConsistent s)
    (hp : s1.prs = s.prs) (hi : s1.userPRsIdx = s.userPRsIdx) : IndexConsistent s1 := by
  unfold IndexConsistent idxMem at *
  rw [hp, hi]
  exact h

theorem indexConsistent_init : IndexConsistent NewMemoryStore := by
  constructor
  · intro k P h
    simp [NewMemoryStore, GoMap.get] at h
  · intro r p h
    simp [idxMem, NewMemoryStore, GoMap.get] at h

theorem indexConsistent_SavePullRequest (s : MemoryStore) (pr : PullRequest)
    (h : IndexConsistent s) : IndexConsistent (SavePullRequest s pr).2 := by
  cases hg : s.prs.get pr.ID with
  | some x => rw [SavePullRequest_of_some hg]; exact h
  | none =>
    constructor
    · intro k P hP r hr
      rw [idxMem_SavePullRequest_of_none hg]
      rw [SavePullRequest_prs_of_none hg, GoMap.get_set] at hP
      by_cases e : pr.ID = k
      · simp only [e, if_true, Option.some.injEq] at hP
        subst hP
        exact Or.inr ⟨hr, rfl⟩
      · simp only [e, if_false] at hP
        exact Or.inl (h.1 k P hP r hr)
    · intro r p hrp
      rw [idxMem_SavePullRequest_of_none hg] at hrp
      rw [SavePullRequest_prs_of_none hg]
      rcases hrp with hrp | ⟨hr, hp⟩
      · obtain ⟨P, hP, hid, hmem⟩ := h.2 r p hrp
        refine ⟨P, ?_, hid, hmem⟩
        rw [GoMap.get_set]
        have e : ¬ pr.ID = p := by
          intro e
          rw [← e, hg] at hP
          cases hP
        simp only [e, if_false]
        exact hP
      · subst hp
        exact ⟨pr, GoMap.get_set_self _ _ _, rfl, hr⟩

theorem indexConsistent_UpdatePullRequest (s : MemoryStore) (pr : PullRequest) (hk : Keyed s)
    (h : IndexConsistent s) : IndexConsistent (UpdatePullRequest s pr).2 := by
  cases hg : s.prs.get pr.ID with
  | none => rw [UpdatePullRequest_of_none hg]; exact h
  | some stored =>
    constructor
    · intro k P hP r hr
      rw [idxMem_UpdatePullRequest_of_some hg]
      rw [UpdatePullRequest_prs_of_some hg, GoMap.get_set] at hP
      by_cases e : pr.ID = k
      · simp only [e, if_true, Option.some.injEq] at hP
        subst hP
        exact Or.inr ⟨hr, rfl⟩
      · simp only [e, if_false] at hP
        have hid : P.ID = k := hk.prs k P hP
        refine Or.inl ⟨h.1 k P hP r hr, ?_⟩
        rintro ⟨_, e2⟩
        exact e (e2.symm.trans hid)
    · intro r p hrp
      rw [idxMem_UpdatePullRequest_of_some hg] at hrp
      rw [UpdatePullRequest_prs_of_some hg]
      rcases hrp with ⟨hrp, hnot⟩ | ⟨hr, hp⟩
      · obtain ⟨P, hP, hid, hmem⟩ := h.2 r p hrp
        refine ⟨P, ?_, hid, hmem⟩
        rw [GoMap.get_set]
        have e : ¬ pr.ID = p := by
          intro e
          rw [← e, hg] at hP
          cases hP
          exact hnot ⟨hmem, e.symm⟩
        simp only [e, if_false]
        exact hP
      · subst hp
        exact ⟨pr, GoMap.get_set_self _ _ _, rfl, hr⟩

theorem StoreReachable.indexConsistent {s : MemoryStore} (h : StoreReachable s) :
    IndexConsistent s := by
  induction h with
  | init => exact indexConsistent_init
  | saveTeam team _ ih => exact indexConsistent_of_frame ih (SaveTeam_prs _ team) (SaveTeam_idx _ team)
  | setUserActive id active _ ih =>
    exact indexConsistent_of_frame ih (SetUserActive_prs _ id active) (SetUserActive_idx _ id active)
  | savePullRequest pr _ ih => exact indexConsistent_SavePullRequest _ pr ih
  | updatePullRequest pr hs ih => exact indexConsistent_UpdatePullRequest _ pr hs.keyed ih

end Avito

namespace Avito

open MemoryStore

/-! ## Selection -/

theorem candidateOf_eq_some (s : MemoryStore) (ex : List String) (m : TeamMember) (u : User) :
    candidateOf s ex m = some u ↔
      m.UserID ∉ ex ∧ m.IsActive = true ∧ s.users.get m.UserID = some u ∧ u.IsActive = true := by
  unfold candidateOf
  by_cases h1 : m.UserID ∈ ex
  · simp [h1]
  · by_cases h2 : m.IsActive = true
    · cases h3 : s.users.get m.UserID with
      | none => simp [h1, h2]
      | some v =>
        by_cases h4 : v.IsActive = true
        · simp only [h1, h2, h4, if_true, Bool.not_true, Option.some.injEq,
            not_false_eq_true, true_and, Bool.false_eq_true, if_false]
          constructor
          · intro e; subst e; exact ⟨rfl, h4⟩
          · intro e; exact e.1
        · simp only [h1, h2, h4, if_false, Bool.not_true, not_false_eq_true, true_and,
            Option.some.injEq, Bool.false_eq_true]
          constructor
          · intro e; cases e
          · rintro ⟨e, e2⟩; subst e; exact absurd e2 h4
    · simp [h1, h2]

theorem candidateOf_isSome (s : MemoryStore) (ex : List String) (m : TeamMember) :
    (candidateOf s ex m).isSome = eligible s ex m := by
  unfold candidateOf eligible
  by_cases h1 : m.UserID ∈ ex
  · simp [h1]
  · by_cases h2 : m.IsActive = true
    · cases h3 : s.users.get m.UserID with
      | none => simp [h1, h2]
      | some v =>
        by_cases h4 : v.IsActive = true <;> simp [h1, h2, h4]
    · simp [h1, h2]

theorem length_filterMap_eq {α β : Type} (f : α → Option β) (l : List α) :
    (l.filterMap f).length = (l.filter (fun a => (f a).isSome)).length := by
  induction l with
  | nil => rfl
  | cons a t ih =>
    cases h : f a with
    | none => simp [List.filterMap_cons, List.filter_cons, h, ih]
    | some b => simp [List.filterMap_cons, List.filter_cons, h, ih]

theorem length_candidates (s : MemoryStore) (ex : List String) (ms : List TeamMember) :
    (ms.filterMap (candidateOf s ex)).length = (ms.filter (eligible s ex)).length := by
  rw [length_filterMap_eq]
  congr 2
  funext m
  exact candidateOf_isSome s ex m

/-- With a non-negative limit the selection returns the first `limit`
entries of the shuffled candidate list. -/
theorem select_of_team {s : MemoryStore} {tn : String} {team : Team}
    (ht : s.teams.get tn = some team) (rand : Rand) (ex : List String) {limit : Int}
    (hl : 0 ≤ limit) :
    SelectRandomActiveMembers s rand tn ex limit =
      .ok ((rand.shuffle (team.Members.filterMap (candidateOf s ex))).take limit.toNat) := by
  unfold SelectRandomActiveMembers
  simp only [ht]
  split
  · rename_i h
    have : ¬ limit < 0 := by omega
    simp [this]
  · rename_i h
    rw [List.take_of_length_le]
    omega

theorem select_of_no_team {s : MemoryStore} {tn : String} (ht : s.teams.get tn = none)
    (rand : Rand) (ex : List String) (limit : Int) :
    SelectRandomActiveMembers s rand tn ex limit = .error Err.ErrTeamNotFound := by
  simp [SelectRandomActiveMembers, ht]

/-- Whatever the limit, a returned list is an initial segment of the shuffled
candidate list. -/
theorem select_ok_take {s : MemoryStore} {rand : Rand} {tn : String} {ex : List String}
    {limit : Int} {users : List User}
    (h : SelectRandomActiveMembers s rand tn ex limit = .ok users) :
    ∃ team n, s.teams.get tn = some team ∧
      users = (rand.shuffle (team.Members.filterMap (candidateOf s ex))).take n := by
  unfold SelectRandomActiveMembers at h
  cases ht : s.teams.get tn with
  | none => simp [ht] at h
  | some team =>
    simp only [ht] at h
    refine ⟨team, ?_⟩
    split at h
    · split at h
      · cases h
      · exact ⟨limit.toNat, rfl, by cases h; rfl⟩
    · refine ⟨(rand.shuffle (team.Members.filterMap (candidateOf s ex))).length, rfl, ?_⟩
      cases h
      exact (List.take_length _).symm

theorem mem_select {s : MemoryStore} (hk : Keyed s) {rand : Rand}
    {ex : List String} {team : Team} {n : Nat} {u : User}
    (hu : u ∈ (rand.shuffle (team.Members.filterMap (candidateOf s ex))).take n) :
    u.ID ∉ ex ∧ (∃ m ∈ team.Members, m.UserID = u.ID ∧ m.IsActive = true) ∧
      s.users.get u.ID = some u ∧ u.IsActive = true := by
  have h1 := (rand.shuffle_perm _).subset (List.mem_of_mem_take hu)
  obtain ⟨m, hm, hc⟩ := List.mem_filterMap.1 h1
  obtain ⟨h2, h3, h4, h5⟩ := (candidateOf_eq_some s ex m u).1 hc
  have h6 : u.ID = m.UserID := hk.users _ _ h4
  rw [h6]
  exact ⟨h2, ⟨m, hm, rfl, h3⟩, h4, h5⟩

theorem candidate_ids (s : MemoryStore) (hk : Keyed s) (ex : List String)
    (ms : List TeamMember) :
    (ms.filterMap (candidateOf s ex)).map (fun u => u.ID) =
      (ms.filter (eligible s ex)).map (fun m => m.UserID) := by
  induction ms with
  | nil => rfl
  | cons m t ih =>
    cases h : candidateOf s ex m with
    | none =>
      have h2 : eligible s ex m = false := by rw [← candidateOf_isSome, h]; rfl
      simp [List.filterMap_cons, List.filter_cons, h, h2, ih]
    | some u =>
      have h2 : eligible s ex m = true := by rw [← candidateOf_isSome, h]; rfl
      have h3 : u.ID = m.UserID := hk.users _ _ ((candidateOf_eq_some s ex m u).1 h).2.2.1
      simp [List.filterMap_cons, List.filter_cons, h, h2, ih, h3]

theorem nodup_select {s : MemoryStore} (hk : Keyed s) (rand : Rand) (ex : List String)
    (team : Team) (n : Nat) (hnd : (team.Members.map (fun m => m.UserID)).Nodup) :
    (((rand.shuffle (team.Members.filterMap (candidateOf s ex))).take n).map
      (fun u => u.ID)).Nodup := by
  have h1 : ((team.Members.filterMap (candidateOf s ex)).map (fun u => u.ID)).Nodup := by
    rw [candidate_ids s hk]
    exact hnd.sublist (List.Sublist.map _ (List.filter_sublist _))
  have h2 : ((rand.shuffle (team.Members.filterMap (candidateOf s ex))).map
      (fun u => u.ID)).Nodup :=
    ((rand.shuffle_perm _).map _).nodup_iff.2 h1
  exact h2.sublist (List.Sublist.map _ (List.take_sublist _ _))

end Avito

namespace Avito

open MemoryStore

/-! ## Service: creating teams and pull requests -/

namespace Service

theorem CreateTeam_state (s : MemoryStore) (team : Team) :
    (CreateTeam s team).2 = (SaveTeam s team).2 := by
  unfold CreateTeam
  split <;> simp_all

theorem SetUserActive_eq (s : MemoryStore) (id : String) (active : Bool) :
    SetUserActive s id active = MemoryStore.SetUserActive s id active := by
  unfold SetUserActive
  split <;> simp_all

theorem select_two {s : MemoryStore} {tn : String} {team : Team}
    (ht : s.teams.get tn = some team) (rand : Rand) (ex : List String) :
    SelectRandomActiveMembers s rand tn ex 2 =
      .ok ((rand.shuffle (team.Members.filterMap (candidateOf s ex))).take 2) := by
  have h := @select_of_team s tn team ht rand ex 2 (by decide)
  simpa using h

theorem select_one {s : MemoryStore} {tn : String} {team : Team}
    (ht : s.teams.get tn = some team) (rand : Rand) (ex : List String) :
    SelectRandomActiveMembers s rand tn ex 1 =
      .ok ((rand.shuffle (team.Members.filterMap (candidateOf s ex))).take 1) := by
  have h := @select_of_team s tn team ht rand ex 1 (by decide)
  simpa using h

theorem CreatePullRequest_no_author {s : MemoryStore} (rand : Rand) (now : Nat)
    {pr : PullRequest} (h : s.users.get pr.AuthorID = none) :
    CreatePullRequest s rand now pr = (.error Err.ErrUserNotFound, s) := by
  simp [CreatePullRequest, GetUser, h]

/-- With a stored author, `CreatePullRequest` saves the request with the ids
of the selected users, the selection being empty when the team is absent. -/
theorem CreatePullRequest_of_author {s : MemoryStore} (rand : Rand) (now : Nat)
    {pr : PullRequest} {author : User} (ha : s.users.get pr.AuthorID = some author) :
    ∃ reviewers : List User,
      (∀ team, s.teams.get author.TeamName = some team →
        reviewers = (rand.shuffle (team.Members.filterMap
          (candidateOf s [pr.AuthorID]))).take 2) ∧
      (s.teams.get author.TeamName = none → reviewers = []) ∧
      CreatePullRequest s rand now pr =
        (match SavePullRequest s (opened pr (reviewerIDs reviewers) now) with
         | (some err, s1) => (.error err, s1)
         | (none, s1) => (.ok (GetPullRequest s1 pr.ID).toOption, s1)) := by
  cases ht : s.teams.get author.TeamName with
  | none =>
    refine ⟨[], fun team h => (by cases h), fun _ => rfl, ?_⟩
    simp [CreatePullRequest, GetUser, ha, select_of_no_team ht, opened] <;> rfl
  | some team =>
    refine ⟨_, fun team h => (by cases h; rfl), fun h => (by cases h), ?_⟩
    simp [CreatePullRequest, GetUser, ha, select_two ht, opened] <;> rfl

theorem CreatePullRequest_exists {s : MemoryStore} (rand : Rand) (now : Nat)
    {pr : PullRequest} {author : User} {x : PullRequest}
    (ha : s.users.get pr.AuthorID = some author) (hx : s.prs.get pr.ID = some x) :
    CreatePullRequest s rand now pr = (.error Err.ErrPRExists, s) := by
  obtain ⟨reviewers, _, _, h⟩ := CreatePullRequest_of_author rand now ha
  have hx2 : s.prs.get (opened pr (reviewerIDs reviewers) now).ID = some x := hx
  rw [h, SavePullRequest_of_some hx2]

/-- The successful case of `CreatePullRequest`. -/
theorem CreatePullRequest_fresh {s : MemoryStore} (rand : Rand) (now : Nat)
    {pr : PullRequest} {author : User}
    (ha : s.users.get pr.AuthorID = some author) (hx : s.prs.get pr.ID = none) :
    ∃ reviewers : List User,
      (∀ team, s.teams.get author.TeamName = some team →
        reviewers = (rand.shuffle (team.Members.filterMap
          (candidateOf s [pr.AuthorID]))).take 2) ∧
      (s.teams.get author.TeamName = none → reviewers = []) ∧
      CreatePullRequest s rand now pr =
        (.ok (some (opened pr (reviewerIDs reviewers) now)),
         (SavePullRequest s (opened pr (reviewerIDs reviewers) now)).2) := by
  obtain ⟨reviewers, h1, h2, h⟩ := CreatePullRequest_of_author rand now ha
  refine ⟨reviewers, h1, h2, ?_⟩
  have hx2 : s.prs.get (opened pr (reviewerIDs reviewers) now).ID = none := hx
  have h3 := SavePullRequest_prs_of_none hx2
  rw [h]
  rw [SavePullRequest_of_none hx2] at h3 ⊢
  simp only [GetPullRequest]
  rw [h3]
  have e : (opened pr (reviewerIDs reviewers) now).ID = pr.ID := rfl
  simp [GoMap.get_set, Except.toOption, e]

end Service

end Avito

namespace Avito

open MemoryStore Service

/-! ## Claims on the store and on pull-request creation -/

theorem Example.reviewedStore_reachable : StoreReachable Example.reviewedStore :=
  StoreReachable.savePullRequest Example.reviewed
    (StoreReachable.saveTeam Example.core StoreReachable.init)

theorem Example.dupStore_reachable : StoreReachable Example.dupStore :=
  StoreReachable.saveTeam Example.dup StoreReachable.init

theorem idxMem_iff (s : MemoryStore) (r p : String) :
    idxMem s r p ↔ ∃ e, s.userPRsIdx.get r = some e ∧ p ∈ e := by
  unfold idxMem
  cases h : s.userPRsIdx.get r with
  | none => simp
  | some e => simp

/-- C1: in every state reachable from the empty store through SaveTeam,
SetUserActive, SavePullRequest and UpdatePullRequest (whether the call
succeeds or fails), the index entry of every reviewer of every stored pull
request holds the id of that pull request, and every id held by the index
entry of a user is the id of a stored pull request that lists the user as a
reviewer. -/
theorem reviewer_index_consistent (s : MemoryStore) (hs : StoreReachable s) :
    (∀ k P, s.prs.get k = some P → ∀ r ∈ P.AssignedReviewers,
      ∃ e, s.userPRsIdx.get r = some e ∧ P.ID ∈ e) ∧
    (∀ r e p, s.userPRsIdx.get r = some e → p ∈ e →
      ∃ P, s.prs.get p = some P ∧ P.ID = p ∧ r ∈ P.AssignedReviewers) := by
  have h := hs.indexConsistent
  constructor
  · intro k P hP r hr
    exact (idxMem_iff s r P.ID).1 (h.1 k P hP r hr)
  · intro r e p he hp
    exact h.2 r p ((idxMem_iff s r p).2 ⟨e, he, hp⟩)

/-- Witness of C1: after saving team "core" and pull request "PR1" reviewed by
B, the index entry of B holds "PR1". -/
theorem reviewer_index_consistent_witness :
    StoreReachable Example.reviewedStore ∧
    ∃ e, Example.reviewedStore.userPRsIdx.get "B" = some e ∧ "PR1" ∈ e :=
  ⟨Example.reviewedStore_reachable,
   (reviewer_index_consistent Example.reviewedStore Example.reviewedStore_reachable).1
     "PR1" Example.reviewed (by decide) "B" (by decide)⟩

/-- C2: in every reachable store state, for every shuffle, team name,
exclusion set and limit at least 0, SelectRandomActiveMembers fails with
ErrTeamNotFound exactly when the team is absent; otherwise it returns users
that are members of the team, are not excluded, are active in the member entry
and active in the live user record, and it returns exactly
min(limit, number of eligible member entries) of them, so at most limit. -/
theorem select_random_active_members_contract (s : MemoryStore) (hs : StoreReachable s)
    (rand : Rand) (teamName : String) (exclude : List String) (limit : Int)
    (hl : 0 ≤ limit) :
    (SelectRandomActiveMembers s rand teamName exclude limit = .error Err.ErrTeamNotFound ↔
      s.teams.get teamName = none) ∧
    (∀ team, s.teams.get teamName = some team →
      ∃ users, SelectRandomActiveMembers s rand teamName exclude limit = .ok users ∧
        users.length = min limit.toNat (team.Members.filter (eligible s exclude)).length ∧
        (users.length : Int) ≤ limit ∧
        ∀ u ∈ users, u.ID ∉ exclude ∧
          (∃ m ∈ team.Members, m.UserID = u.ID ∧ m.IsActive = true) ∧
          s.users.get u.ID = some u ∧ u.IsActive = true) := by
  constructor
  · constructor
    · intro h
      cases ht : s.teams.get teamName with
      | none => rfl
      | some team =>
        rw [select_of_team ht rand exclude hl] at h
        cases h
    · intro ht
      exact select_of_no_team ht rand exclude limit
  · intro team ht
    refine ⟨_, select_of_team ht rand exclude hl, ?_, ?_, ?_⟩
    · rw [List.length_take, (rand.shuffle_perm _).length_eq, length_candidates]
    · rw [List.length_take]
      omega
    · intro u hu
      exact mem_select hs.keyed hu

/-- Witness of C2: team "core" with A excluded and limit 2 under the reversing
shuffle yields exactly one user. -/
theorem select_random_active_members_contract_witness :
    StoreReachable Example.reviewedStore ∧ (0 : Int) ≤ 2 ∧
    ∃ users, SelectRandomActiveMembers Example.reviewedStore Rand.reversing "core" ["A"] 2
      = .ok users ∧ users.length = 1 :=
  ⟨Example.reviewedStore_reachable, by decide,
   match (select_random_active_members_contract Example.reviewedStore
      Example.reviewedStore_reachable Rand.reversing "core" ["A"] 2 (by decide)).2
      Example.core (by decide) with
   | ⟨users, hu, hlen, _⟩ => ⟨users, hu, hlen.trans (by decide)⟩⟩

/-- Counterexample to C3: team "dup" lists Y twice; the selection for it
returns Y twice, and the pull request created by X gets the reviewers Y, Y. -/
theorem select_distinct_counterexample :
    StoreReachable Example.dupStore ∧
    (∃ users, SelectRandomActiveMembers Example.dupStore Rand.identity "dup" ["X"] 2
        = .ok users ∧ ¬ (users.map (fun u => u.ID)).Nodup) ∧
    (∃ saved, (CreatePullRequest Example.dupStore Rand.identity 1 Example.prX).1
        = .ok (some saved) ∧ saved.AssignedReviewers = ["Y", "Y"] ∧
        ¬ saved.AssignedReviewers.Nodup) :=
  ⟨Example.dupStore_reachable,
   ⟨[⟨"Y", "yuri", "dup", true⟩, ⟨"Y", "yuri", "dup", true⟩], by decide, by decide⟩,
   ⟨opened Example.prX ["Y", "Y"] 1, by decide, by decide, by decide⟩⟩

/-- C3, amended: in every reachable store state, for a team whose member list
repeats no user id, the users returned by SelectRandomActiveMembers have
pairwise distinct ids, whatever the exclusion set, the limit and the shuffle;
and a pull request created by an author whose team, if stored, repeats no user
id gets a reviewer list without duplicates. -/
theorem select_distinct_of_distinct_members (s : MemoryStore) (hs : StoreReachable s)
    (rand : Rand) :
    (∀ teamName team exclude limit users, s.teams.get teamName = some team →
      (team.Members.map (fun m => m.UserID)).Nodup →
      SelectRandomActiveMembers s rand teamName exclude limit = .ok users →
      (users.map (fun u => u.ID)).Nodup) ∧
    (∀ now pr author saved, s.users.get pr.AuthorID = some author →
      (∀ team, s.teams.get author.TeamName = some team →
        (team.Members.map (fun m => m.UserID)).Nodup) →
      (CreatePullRequest s rand now pr).1 = .ok (some saved) →
      saved.AssignedReviewers.Nodup) := by
  constructor
  · intro teamName team exclude limit users ht hnd h
    obtain ⟨team2, n, ht2, hu⟩ := select_ok_take h
    rw [ht] at ht2
    cases ht2
    rw [hu]
    exact nodup_select hs.keyed rand exclude team n hnd
  · intro now pr author saved ha hnd h
    cases hx : s.prs.get pr.ID with
    | some x =>
      rw [CreatePullRequest_exists rand now ha hx] at h
      cases h
    | none =>
      obtain ⟨reviewers, h1, h2, h3⟩ := CreatePullRequest_fresh rand now ha hx
      rw [h3] at h
      cases h
      show (reviewerIDs reviewers).Nodup
      cases ht : s.teams.get author.TeamName with
      | none => rw [h2 ht]; exact List.nodup_nil
      | some team =>
        rw [h1 team ht]
        exact nodup_select hs.keyed rand [pr.AuthorID] team 2 (hnd team ht)

/-- Witness of the amended C3: team "core" repeats no id and its selection
has distinct ids. -/
theorem select_distinct_of_distinct_members_witness :
    StoreReachable Example.reviewedStore ∧
    (Example.core.Members.map (fun m => m.UserID)).Nodup ∧
    SelectRandomActiveMembers Example.reviewedStore Rand.reversing "core" [] 2
      = .ok [⟨"B", "bob", "core", true⟩, ⟨"A", "alice", "core", true⟩] ∧
    ([⟨"B", "bob", "core", true⟩, ⟨"A", "alice", "core", true⟩].map
      (fun u : User => u.ID)).Nodup :=
  ⟨Example.reviewedStore_reachable, by decide, by decide,
   (select_distinct_of_distinct_members Example.reviewedStore
      Example.reviewedStore_reachable Rand.reversing).1 "core" Example.core [] 2 _
      (by decide) (by decide) (by decide)⟩

end Avito

namespace Avito

open MemoryStore Service

end Avito

namespace Avito

open MemoryStore

/-! ## Service: merging and reassigning -/

namespace Service

theorem findReviewer_some {l : List String} {old : String} {i : Nat}
    (h : findReviewer l old = some i) :
    i < l.length ∧ l[i]? = some old ∧ ∀ j, j < i → l[j]? ≠ some old := by
  induction l generalizing i with
  | nil => simp [findReviewer] at h
  | cons a t ih =>
    unfold findReviewer at h
    by_cases e : a = old
    · simp only [e, if_true, Option.some.injEq] at h
      subst h
      simp [e]
    · simp only [e, if_false, Option.map_eq_some'] at h
      obtain ⟨k, hk, rfl⟩ := h
      obtain ⟨h1, h2, h3⟩ := ih hk
      refine ⟨by simp [h1], by simpa using h2, ?_⟩
      intro j hj
      cases j with
      | zero => simp [e]
      | succ j =>
        have := h3 j (by omega)
        simpa using this

theorem findReviewer_none {l : List String} {old : String}
    (h : findReviewer l old = none) : old ∉ l := by
  induction l with
  | nil => simp
  | cons a t ih =>
    unfold findReviewer at h
    by_cases e : a = old
    · simp [e] at h
    · simp only [e, if_false, Option.map_eq_none'] at h
      have e2 : ¬ old = a := fun x => e x.symm
      simp [e2, ih h]

theorem nodup_set_of_not_mem {l : List String} {x : String} (i : Nat) (hl : l.Nodup)
    (hx : x ∉ l) : (l.set i x).Nodup := by
  induction l generalizing i with
  | nil => simp
  | cons a t ih =>
    have h1 : a ∉ t ∧ t.Nodup := List.nodup_cons.1 hl
    have h2 : ¬ x = a ∧ x ∉ t := by simpa using hx
    cases i with
    | zero =>
      simp only [List.set_cons_zero, List.nodup_cons]
      exact ⟨h2.2, h1.2⟩
    | succ i =>
      simp only [List.set_cons_succ, List.nodup_cons]
      refine ⟨?_, ih i h1.2 h2.2⟩
      intro hmem
      rcases List.mem_or_eq_of_mem_set hmem with h3 | h3
      · exact h1.1 h3
      · exact h2.1 h3.symm

/-- The state after `MergePullRequest` is the state before, or the state after
updating an unmerged stored record to MERGED. -/
theorem MergePullRequest_cases (s : MemoryStore) (now : Nat) (id : String) :
    (s.prs.get id = none ∧ MergePullRequest s now id = (.error Err.ErrPRNotFound, s)) ∨
    (∃ p, s.prs.get id = some p ∧ p.Status = PRStatusMerged ∧
      MergePullRequest s now id = (.ok p, s)) ∨
    (∃ p, s.prs.get id = some p ∧ p.Status ≠ PRStatusMerged ∧
      MergePullRequest s now id =
        (match UpdatePullRequest s { p with Status := PRStatusMerged, MergedAt := some now } with
         | (some err, s1) => (.error err, s1)
         | (none, s1) => (.ok { p with Status := PRStatusMerged, MergedAt := some now }, s1))) := by
  cases hg : s.prs.get id with
  | none =>
    left
    simp [MergePullRequest, GetPullRequest, hg]
  | some p =>
    right
    by_cases hm : p.Status = PRStatusMerged
    · left
      exact ⟨p, rfl, hm, by simp [MergePullRequest, GetPullRequest, hg, hm]⟩
    · right
      refine ⟨p, rfl, hm, ?_⟩
      simp [MergePullRequest, GetPullRequest, hg, hm] <;> rfl

/-- With records stored under their own ids, merging an unmerged stored pull
request succeeds. -/
theorem MergePullRequest_open {s : MemoryStore} (hk : Keyed s) (now : Nat) {id : String}
    {p : PullRequest} (hp : s.prs.get id = some p) (hm : p.Status ≠ PRStatusMerged) :
    MergePullRequest s now id =
      (.ok { p with Status := PRStatusMerged, MergedAt := some now },
       (UpdatePullRequest s { p with Status := PRStatusMerged, MergedAt := some now }).2) ∧
    (UpdatePullRequest s { p with Status := PRStatusMerged, MergedAt := some now }).2.prs =
      s.prs.set id { p with Status := PRStatusMerged, MergedAt := some now } := by
  have hid : p.ID = id := hk.prs id p hp
  have hg : s.prs.get
      (PullRequest.ID { p with Status := PRStatusMerged, MergedAt := some now }) = some p := by
    show s.prs.get p.ID = some p
    rw [hid]; exact hp
  rcases MergePullRequest_cases s now id with ⟨h1, _⟩ | ⟨q, h1, h2, _⟩ | ⟨q, h1, _, h3⟩
  · rw [hp] at h1; cases h1
  · rw [hp] at h1; cases h1; exact absurd h2 hm
  · rw [hp] at h1; cases h1
    constructor
    · rw [h3, UpdatePullRequest_of_some hg]
    · rw [UpdatePullRequest_prs_of_some hg]
      show s.prs.set p.ID _ = _
      rw [hid]

/-- The outcomes of `ReassignReviewer`: an error that leaves the state as it
is, or the update of the stored record with one reviewer replaced. -/
theorem ReassignReviewer_cases (s : MemoryStore) (rand : Rand) (prID old : String) :
    (∃ err, ReassignReviewer s rand prID old = (.error err, s)) ∨
    (∃ p idx reviewer replacement rest, s.prs.get prID = some p ∧
      p.Status ≠ PRStatusMerged ∧ findReviewer p.AssignedReviewers old = some idx ∧
      s.users.get old = some reviewer ∧
      SelectRandomActiveMembers s rand reviewer.TeamName (old :: p.AssignedReviewers) 1 =
        .ok (replacement :: rest) ∧
      ReassignReviewer s rand prID old =
        (match UpdatePullRequest s
            { p with AssignedReviewers := p.AssignedReviewers.set idx replacement.ID } with
         | (some err, s1) => (.error err, s1)
         | (none, s1) =>
           (.ok ({ p with AssignedReviewers := p.AssignedReviewers.set idx replacement.ID },
              replacement.ID), s1))) := by
  cases hg : s.prs.get prID with
  | none => exact Or.inl ⟨Err.ErrPRNotFound, by simp [ReassignReviewer, GetPullRequest, hg]⟩
  | some p =>
    by_cases hm : p.Status = PRStatusMerged
    · exact Or.inl ⟨Err.ErrPRMerged, by simp [ReassignReviewer, GetPullRequest, hg, hm]⟩
    · cases hf : findReviewer p.AssignedReviewers old with
      | none =>
        exact Or.inl ⟨Err.ErrReviewerMissing, by
          simp [ReassignReviewer, GetPullRequest, hg, hm, hf]⟩
      | some idx =>
        cases hu : s.users.get old with
        | none =>
          exact Or.inl ⟨Err.ErrUserNotFound, by
            simp [ReassignReviewer, GetPullRequest, GetUser, hg, hm, hf, hu]⟩
        | some reviewer =>
          cases hsel : SelectRandomActiveMembers s rand reviewer.TeamName
              (old :: p.AssignedReviewers) 1 with
          | error err =>
            exact Or.inl ⟨err, by
              simp [ReassignReviewer, GetPullRequest, GetUser, hg, hm, hf, hu, hsel]⟩
          | ok cands =>
            cases cands with
            | nil =>
              exact Or.inl ⟨Err.ErrNoCandidate, by
                simp [ReassignReviewer, GetPullRequest, GetUser, hg, hm, hf, hu, hsel]⟩
            | cons replacement rest =>
              refine Or.inr ⟨p, idx, reviewer, replacement, rest, rfl, hm, hf, rfl, hsel, ?_⟩
              simp [ReassignReviewer, GetPullRequest, GetUser, hg, hm, hf, hu, hsel] <;> rfl

end Service

end Avito

namespace Avito

open MemoryStore

namespace Service

/-- The successful case of `ReassignReviewer` in a state whose records are
stored under their own ids. -/
theorem ReassignReviewer_ok {s : MemoryStore} (hk : Keyed s) {rand : Rand} {prID old : String}
    {pr1 : PullRequest} {newID : String} {s1 : MemoryStore}
    (h : ReassignReviewer s rand prID old = (.ok (pr1, newID), s1)) :
    ∃ p idx reviewer team n u, s.prs.get prID = some p ∧ p.Status ≠ PRStatusMerged ∧
      findReviewer p.AssignedReviewers old = some idx ∧
      s.users.get old = some reviewer ∧ s.teams.get reviewer.TeamName = some team ∧
      u ∈ (rand.shuffle (team.Members.filterMap
        (candidateOf s (old :: p.AssignedReviewers)))).take n ∧
      u.ID = newID ∧
      pr1 = { p with AssignedReviewers := p.AssignedReviewers.set idx newID } ∧
      s1 = (UpdatePullRequest s pr1).2 ∧ s1.prs = s.prs.set prID pr1 := by
  rcases ReassignReviewer_cases s rand prID old with ⟨err, he⟩ | ⟨p, idx, reviewer,
    replacement, rest, hp, hm, hf, hu, hsel, he⟩
  · rw [he] at h; cases h
  · have hid : p.ID = prID := hk.prs prID p hp
    have hg : s.prs.get (PullRequest.ID
        { p with AssignedReviewers := p.AssignedReviewers.set idx replacement.ID }) = some p := by
      show s.prs.get p.ID = some p
      rw [hid]; exact hp
    rw [he, UpdatePullRequest_of_some hg] at h
    have hprs := UpdatePullRequest_prs_of_some hg
    rw [UpdatePullRequest_of_some hg] at hprs
    obtain ⟨team, n, ht, htake⟩ := select_ok_take hsel
    have hmem : replacement ∈ (rand.shuffle (team.Members.filterMap
        (candidateOf s (old :: p.AssignedReviewers)))).take n := by
      rw [← htake]; exact List.mem_cons_self _ _
    simp only [Prod.mk.injEq, Except.ok.injEq] at h
    obtain ⟨⟨h1, h2⟩, h3⟩ := h
    subst h2
    refine ⟨p, idx, reviewer, team, n, replacement, hp, hm, hf, hu, ht, hmem, rfl, h1.symm, ?_, ?_⟩
    · rw [← h1, UpdatePullRequest_of_some hg]
      exact h3.symm
    · rw [← h3, ← h1, hprs]
      show s.prs.set p.ID _ = _
      rw [hid]

theorem CreatePullRequest_state (s : MemoryStore) (rand : Rand) (now : Nat) (pr : PullRequest) :
    (CreatePullRequest s rand now pr).2 = s ∨
    ∃ ids, s.prs.get pr.ID = none ∧
      (CreatePullRequest s rand now pr).2 = (SavePullRequest s (opened pr ids now)).2 := by
  cases ha : s.users.get pr.AuthorID with
  | none => left; rw [CreatePullRequest_no_author rand now ha]
  | some author =>
    cases hx : s.prs.get pr.ID with
    | some x => left; rw [CreatePullRequest_exists rand now ha hx]
    | none =>
      right
      obtain ⟨reviewers, _, _, h⟩ := CreatePullRequest_fresh rand now ha hx
      exact ⟨reviewerIDs reviewers, rfl, by rw [h]⟩

theorem MergePullRequest_state {s : MemoryStore} (hk : Keyed s) (now : Nat) (id : String) :
    (MergePullRequest s now id).2 = s ∨
    ∃ p, s.prs.get id = some p ∧ p.Status ≠ PRStatusMerged ∧
      (MergePullRequest s now id).2 =
        (UpdatePullRequest s { p with Status := PRStatusMerged, MergedAt := some now }).2 := by
  rcases MergePullRequest_cases s now id with ⟨_, h⟩ | ⟨p, _, _, h⟩ | ⟨p, hp, hm, _⟩
  · left; rw [h]
  · left; rw [h]
  · right
    exact ⟨p, hp, hm, by rw [(MergePullRequest_open hk now hp hm).1]⟩

theorem ReassignReviewer_state {s : MemoryStore} (hk : Keyed s) (rand : Rand)
    (prID old : String) :
    (ReassignReviewer s rand prID old).2 = s ∨
    ∃ p idx newID, s.prs.get prID = some p ∧ p.Status ≠ PRStatusMerged ∧
      (ReassignReviewer s rand prID old).2 =
        (UpdatePullRequest s { p with AssignedReviewers := p.AssignedReviewers.set idx newID }).2 := by
  cases h : ReassignReviewer s rand prID old with
  | mk res s1 =>
    cases res with
    | error err =>
      left
      rcases ReassignReviewer_cases s rand prID old with ⟨err2, he⟩ | ⟨p, idx, reviewer,
        replacement, rest, hp, hm, hf, hu, hsel, he⟩
      · rw [he] at h; cases h; rfl
      · have hid : p.ID = prID := hk.prs prID p hp
        have hg : s.prs.get (PullRequest.ID
            { p with AssignedReviewers := p.AssignedReviewers.set idx replacement.ID })
            = some p := by
          show s.prs.get p.ID = some p
          rw [hid]; exact hp
        rw [he, UpdatePullRequest_of_some hg] at h
        cases h
    | ok v =>
      right
      obtain ⟨pr1, newID⟩ := v
      obtain ⟨p, idx, _, _, _, _, hp, hm, _, _, _, _, _, h8, h9, _⟩ := ReassignReviewer_ok hk h
      exact ⟨p, idx, newID, hp, hm, by rw [h9, h8]⟩

/-- Every state reachable through the service is reachable through the store
methods. -/
theorem step_storeReachable {s : MemoryStore} (hs : StoreReachable s) (op : Op) :
    StoreReachable (step s op) := by
  cases op with
  | createTeam team =>
    show StoreReachable (CreateTeam s team).2
    rw [CreateTeam_state]
    exact StoreReachable.saveTeam team hs
  | getTeam name => exact hs
  | setUserActive userID active =>
    show StoreReachable (SetUserActive s userID active).2
    rw [SetUserActive_eq]
    exact StoreReachable.setUserActive userID active hs
  | createPullRequest rand now pr =>
    show StoreReachable (CreatePullRequest s rand now pr).2
    rcases CreatePullRequest_state s rand now pr with h | ⟨ids, _, h⟩
    · rw [h]; exact hs
    · rw [h]; exact StoreReachable.savePullRequest _ hs
  | mergePullRequest now id =>
    show StoreReachable (MergePullRequest s now id).2
    rcases MergePullRequest_state hs.keyed now id with h | ⟨p, _, _, h⟩
    · rw [h]; exact hs
    · rw [h]; exact StoreReachable.updatePullRequest _ hs
  | reassignReviewer rand prID old =>
    show StoreReachable (ReassignReviewer s rand prID old).2
    rcases ReassignReviewer_state hs.keyed rand prID old with h | ⟨p, idx, newID, _, _, h⟩
    · rw [h]; exact hs
    · rw [h]; exact StoreReachable.updatePullRequest _ hs
  | listUserReviews userID => exact hs

theorem Reachable.storeReachable {s : MemoryStore} (h : Reachable s) : StoreReachable s := by
  induction h with
  | init => exact StoreReachable.init
  | step op _ ih => exact step_storeReachable ih op

end Service

end Avito

namespace Avito

open MemoryStore Service

/-! ## Claims on reassignment and merge -/

theorem Example.mergedStore_reachable : StoreReachable Example.mergedStore :=
  StoreReachable.updatePullRequest Example.merged Example.reviewedStore_reachable

theorem SavePullRequest_get_of_some {s : MemoryStore} (pr : PullRequest) {k : String}
    {P : PullRequest} (h : s.prs.get k = some P) :
    (SavePullRequest s pr).2.prs.get k = some P := by
  cases hg : s.prs.get pr.ID with
  | some x => rw [SavePullRequest_of_some hg]; exact h
  | none =>
    rw [SavePullRequest_prs_of_none hg, GoMap.get_set_of_ne]
    · exact h
    · intro e
      rw [e, h] at hg
      cases hg

theorem UpdatePullRequest_get_of_ne (s : MemoryStore) {pr : PullRequest} {k : String}
    (h : pr.ID ≠ k) : (UpdatePullRequest s pr).2.prs.get k = s.prs.get k := by
  cases hg : s.prs.get pr.ID with
  | none => rw [UpdatePullRequest_of_none hg]
  | some x => rw [UpdatePullRequest_prs_of_some hg, GoMap.get_set_of_ne _ _ h]

/-- C5: in every reachable store state, a successful ReassignReviewer on a
pull request whose reviewer list has no duplicates returns (and stores) a
reviewer list of the same length that is the old list with the returned new id
written at the position of the first occurrence of the old reviewer; every
other position is unchanged, the new id differs from the old reviewer and from
every previously assigned reviewer, and the new list has no duplicates. -/
theorem reassign_replaces_in_place (s : MemoryStore) (hs : StoreReachable s) (rand : Rand)
    (prID old : String) (p pr1 : PullRequest) (newID : String) (s1 : MemoryStore)
    (hp : s.prs.get prID = some p) (hnd : p.AssignedReviewers.Nodup)
    (h : ReassignReviewer s rand prID old = (.ok (pr1, newID), s1)) :
    pr1.AssignedReviewers.length = p.AssignedReviewers.length ∧
    (∃ idx, idx < p.AssignedReviewers.length ∧ p.AssignedReviewers[idx]? = some old ∧
      (∀ j, j < idx → p.AssignedReviewers[j]? ≠ some old) ∧
      pr1.AssignedReviewers = p.AssignedReviewers.set idx newID ∧
      pr1.AssignedReviewers[idx]? = some newID ∧
      ∀ j, j ≠ idx → pr1.AssignedReviewers[j]? = p.AssignedReviewers[j]?) ∧
    newID ≠ old ∧ newID ∉ p.AssignedReviewers ∧ pr1.AssignedReviewers.Nodup ∧
    s1.prs.get prID = some pr1 := by
  obtain ⟨p2, idx, reviewer, team, n, u, hp2, _, hf, _, _, hmem, hu, hpr1, _, hprs⟩ :=
    ReassignReviewer_ok hs.keyed h
  rw [hp] at hp2
  cases hp2
  obtain ⟨hex, _, _, _⟩ := mem_select hs.keyed hmem
  rw [hu] at hex
  have hne : newID ≠ old := fun e => hex (by simp [e])
  have hnot : newID ∉ p.AssignedReviewers := fun e => hex (List.mem_cons_of_mem _ e)
  obtain ⟨h1, h2, h3⟩ := findReviewer_some hf
  have hrev : pr1.AssignedReviewers = p.AssignedReviewers.set idx newID := by rw [hpr1]
  refine ⟨?_, ⟨idx, h1, h2, h3, hrev, ?_, ?_⟩, hne, hnot, ?_, ?_⟩
  · rw [hrev, List.length_set]
  · rw [hrev]
    simp [h1]
  · intro j hj
    rw [hrev]
    exact List.getElem?_set_ne (fun e => hj e.symm)
  · rw [hrev]
    exact nodup_set_of_not_mem idx hnd hnot
  · rw [hprs]
    exact GoMap.get_set_self _ _ _

/-- Witness of C5: reassigning B on "PR1" in the store holding team "core". -/
theorem reassign_replaces_in_place_witness :
    StoreReachable Example.reviewedStore ∧
    Example.reviewedStore.prs.get "PR1" = some Example.reviewed ∧
    Example.reviewed.AssignedReviewers.Nodup ∧
    ReassignReviewer Example.reviewedStore Rand.identity "PR1" "B" =
      (.ok (Example.reassigned, "A"), Example.reassignedStore) ∧
    "A" ≠ "B" ∧ "A" ∉ Example.reviewed.AssignedReviewers ∧
    Example.reassigned.AssignedReviewers.Nodup :=
  ⟨Example.reviewedStore_reachable, by decide, by decide, by decide,
   (reassign_replaces_in_place Example.reviewedStore Example.reviewedStore_reachable
      Rand.identity "PR1" "B" Example.reviewed Example.reassigned "A" Example.reassignedStore
      (by decide) (by decide) (by decide)).2.2.1,
   (reassign_replaces_in_place Example.reviewedStore Example.reviewedStore_reachable
      Rand.identity "PR1" "B" Example.reviewed Example.reassigned "A" Example.reassignedStore
      (by decide) (by decide) (by decide)).2.2.2.1,
   (reassign_replaces_in_place Example.reviewedStore Example.reviewedStore_reachable
      Rand.identity "PR1" "B" Example.reviewed Example.reassigned "A" Example.reassignedStore
      (by decide) (by decide) (by decide)).2.2.2.2.1⟩

/-- C6 fails on the code: after creating team "pair" (A and B active) and pull
request "PR1" authored by A, which gets the reviewer B, reassigning B selects
A, so that the stored "PR1" lists its own author as its reviewer; the state is
reachable through the service. -/
theorem reassign_assigns_author :
    Service.Reachable
      (ReassignReviewer (Example.pairStore Rand.identity) Rand.identity "PR1" "B").2 ∧
    (Example.pairStore Rand.identity).prs.get "PR1" =
      some (opened Example.pr1 ["B"] 1) ∧
    (ReassignReviewer (Example.pairStore Rand.identity) Rand.identity "PR1" "B").1 =
      .ok (opened Example.pr1 ["A"] 1, "A") ∧
    (ReassignReviewer (Example.pairStore Rand.identity) Rand.identity "PR1" "B").2.prs.get "PR1" =
      some (opened Example.pr1 ["A"] 1) ∧
    (opened Example.pr1 ["A"] 1).AuthorID ∈ (opened Example.pr1 ["A"] 1).AssignedReviewers :=
  ⟨Service.Reachable.step (.reassignReviewer Rand.identity "PR1" "B")
     (Service.Reachable.step (.createPullRequest Rand.identity 1 Example.pr1)
       (Service.Reachable.step (.createTeam Example.pair) Service.Reachable.init)),
   by decide, by decide, by decide, by decide⟩

/-- C7: in every reachable store state holding pull request `id`, two
MergePullRequest calls in a row both succeed, the second returns the record
the first returned (status MERGED, the same mergedAt, the same reviewers) and
leaves the store as the first call left it, whatever instants the clock gives
to the two calls. -/
theorem merge_idempotent (s : MemoryStore) (hs : StoreReachable s) (id : String)
    (now1 now2 : Nat) (p : PullRequest) (hp : s.prs.get id = some p) :
    ∃ m, (MergePullRequest s now1 id).1 = .ok m ∧
      m.Status = PRStatusMerged ∧ m.AssignedReviewers = p.AssignedReviewers ∧
      MergePullRequest (MergePullRequest s now1 id).2 now2 id =
        (.ok m, (MergePullRequest s now1 id).2) := by
  by_cases hm : p.Status = PRStatusMerged
  · have h1 : MergePullRequest s now1 id = (.ok p, s) := by
      simp [MergePullRequest, GetPullRequest, hp, hm]
    have h2 : MergePullRequest s now2 id = (.ok p, s) := by
      simp [MergePullRequest, GetPullRequest, hp, hm]
    exact ⟨p, by rw [h1], hm, rfl, by rw [h1]; exact h2⟩
  · obtain ⟨h1, h2⟩ := MergePullRequest_open hs.keyed now1 hp hm
    refine ⟨{ p with Status := PRStatusMerged, MergedAt := some now1 }, by rw [h1], rfl, rfl, ?_⟩
    rw [h1]
    have hg : (UpdatePullRequest s
        { p with Status := PRStatusMerged, MergedAt := some now1 }).2.prs.get id =
        some { p with Status := PRStatusMerged, MergedAt := some now1 } := by
      rw [h2]; exact GoMap.get_set_self _ _ _
    simp [MergePullRequest, GetPullRequest, hg]

/-- Witness of C7: merging "PR1" twice, at instants 9 and 10. -/
theorem merge_idempotent_witness :
    StoreReachable Example.reviewedStore ∧
    Example.reviewedStore.prs.get "PR1" = some Example.reviewed ∧
    ∃ m, (MergePullRequest Example.reviewedStore 9 "PR1").1 = .ok m ∧
      MergePullRequest (MergePullRequest Example.reviewedStore 9 "PR1").2 10 "PR1" =
        (.ok m, (MergePullRequest Example.reviewedStore 9 "PR1").2) :=
  ⟨Example.reviewedStore_reachable, by decide,
   match merge_idempotent Example.reviewedStore Example.reviewedStore_reachable "PR1" 9 10
      Example.reviewed (by decide) with
   | ⟨m, h1, _, _, h2⟩ => ⟨m, h1, h2⟩⟩

/-- A stored pull request with status MERGED is stored unchanged after any
single call of the service. -/
theorem Service.step_keeps_merged {s : MemoryStore} (hs : StoreReachable s) (op : Op)
    {k : String} {P : PullRequest} (hP : s.prs.get k = some P)
    (hm : P.Status = PRStatusMerged) : (step s op).prs.get k = some P := by
  cases op with
  | createTeam team =>
    show (CreateTeam s team).2.prs.get k = some P
    rw [CreateTeam_state, SaveTeam_prs]; exact hP
  | getTeam name => exact hP
  | setUserActive userID active =>
    show (Service.SetUserActive s userID active).2.prs.get k = some P
    rw [SetUserActive_eq, SetUserActive_prs]; exact hP
  | createPullRequest rand now pr =>
    show (CreatePullRequest s rand now pr).2.prs.get k = some P
    rcases CreatePullRequest_state s rand now pr with h | ⟨ids, _, h⟩
    · rw [h]; exact hP
    · rw [h]; exact SavePullRequest_get_of_some _ hP
  | mergePullRequest now id =>
    show (MergePullRequest s now id).2.prs.get k = some P
    rcases MergePullRequest_state hs.keyed now id with h | ⟨p, hp, hpm, h⟩
    · rw [h]; exact hP
    · rw [h, UpdatePullRequest_get_of_ne]
      · exact hP
      · show p.ID ≠ k
        rw [hs.keyed.prs id p hp]
        intro e
        rw [e, hP] at hp
        cases hp
        exact hpm hm
  | reassignReviewer rand prID old =>
    show (ReassignReviewer s rand prID old).2.prs.get k = some P
    rcases ReassignReviewer_state hs.keyed rand prID old with h | ⟨p, idx, newID, hp, hpm, h⟩
    · rw [h]; exact hP
    · rw [h, UpdatePullRequest_get_of_ne]
      · exact hP
      · show p.ID ≠ k
        rw [hs.keyed.prs prID p hp]
        intro e
        rw [e, hP] at hp
        cases hp
        exact hpm hm
  | listUserReviews userID => exact hP

/-- C8: in every reachable store state, a stored pull request with status
MERGED is stored unchanged (same status, reviewers and mergedAt) after any
single call of the service with any arguments, reads included; in particular
its status does not become OPEN. -/
theorem merged_is_terminal (s : MemoryStore) (hs : StoreReachable s) (op : Op) (k : String)
    (P : PullRequest) (hP : s.prs.get k = some P) (hm : P.Status = PRStatusMerged) :
    (step s op).prs.get k = some P ∧
    ∀ Q, (step s op).prs.get k = some Q →
      Q.Status = PRStatusMerged ∧ Q.Status ≠ PRStatusOpen ∧
      Q.AssignedReviewers = P.AssignedReviewers ∧ Q.MergedAt = P.MergedAt := by
  have key : (step s op).prs.get k = some P := Service.step_keeps_merged hs op hP hm
  refine ⟨key, ?_⟩
  intro Q hQ
  rw [key] at hQ
  cases hQ
  refine ⟨hm, ?_, rfl, rfl⟩
  rw [hm]
  decide

/-- Witness of C8: the merged "PR1" survives a CreatePullRequest with its own
id. -/
theorem merged_is_terminal_witness :
    StoreReachable Example.mergedStore ∧
    Example.mergedStore.prs.get "PR1" = some Example.merged ∧
    Example.merged.Status = PRStatusMerged ∧
    (step Example.mergedStore (.createPullRequest Rand.identity 11 Example.pr1)).prs.get "PR1" =
      some Example.merged :=
  ⟨Example.mergedStore_reachable, by decide, by decide,
   (merged_is_terminal Example.mergedStore Example.mergedStore_reachable
      (.createPullRequest Rand.identity 11 Example.pr1) "PR1" Example.merged
      (by decide) (by decide)).1⟩

end Avito

namespace Avito

open MemoryStore Service

/-! ## Listing the reviews of a user -/

theorem nodup_setAdd {e : List String} (k : String) (h : e.Nodup) : (setAdd e k).Nodup := by
  unfold setAdd
  by_cases hk : k ∈ e
  · simp only [hk, if_true]; exact h
  · simp only [hk, if_false]
    exact List.Nodup.append h (List.nodup_singleton k) (by simpa using hk)

theorem nodup_setDelete {e : List String} (k : String) (h : e.Nodup) :
    (setDelete e k).Nodup :=
  List.Nodup.filter _ h

theorem idxNodup_addIndex (s : MemoryStore) (u q : String) (h : IdxNodup s) :
    IdxNodup (addIndexLockHeld s u q) := by
  intro r e he
  unfold addIndexLockHeld at he
  simp only [GoMap.get_set] at he
  by_cases hr : u = r
  · simp only [hr, if_true, Option.some.injEq] at he
    rw [← he]
    apply nodup_setAdd
    cases hg : s.userPRsIdx.get r with
    | none => subst hr; simp [hg, GoMap.get_set]
    | some e0 => subst hr; simpa [hg] using h _ e0 hg
  · simp only [hr, if_false] at he
    cases hg : s.userPRsIdx.get u with
    | none =>
      rw [hg] at he
      simp only [GoMap.get_set, hr, if_false] at he
      exact h r e he
    | some e0 =>
      rw [hg] at he
      exact h r e he

theorem idxNodup_dropIndex (s : MemoryStore) (u q : String) (h : IdxNodup s) :
    IdxNodup (dropIndex s u q) := by
  intro r e he
  unfold dropIndex at he
  cases hg : s.userPRsIdx.get u with
  | none =>
    rw [hg] at he
    exact h r e he
  | some e0 =>
    rw [hg] at he
    simp only [GoMap.get_set] at he
    by_cases hr : u = r
    · simp only [hr, if_true, Option.some.injEq] at he
      rw [← he]
      exact nodup_setDelete q (h u e0 hg)
    · simp only [hr, if_false] at he
      exact h r e he

theorem idxNodup_of_frame {s s1 : MemoryStore} (h : IdxNodup s)
    (hi : s1.userPRsIdx = s.userPRsIdx) : IdxNodup s1 := by
  unfold IdxNodup
  rw [hi]
  exact h

theorem idxNodup_SavePullRequest (s : MemoryStore) (pr : PullRequest) (h : IdxNodup s) :
    IdxNodup (SavePullRequest s pr).2 := by
  cases hg : s.prs.get pr.ID with
  | some x => rw [SavePullRequest_of_some hg]; exact h
  | none =>
    rw [SavePullRequest_of_none hg]
    exact foldl_preserves IdxNodup _ (fun st r hst => idxNodup_addIndex st r pr.ID hst) _ _ h

theorem idxNodup_UpdatePullRequest (s : MemoryStore) (pr : PullRequest) (h : IdxNodup s) :
    IdxNodup (UpdatePullRequest s pr).2 := by
  cases hg : s.prs.get pr.ID with
  | none => rw [UpdatePullRequest_of_none hg]; exact h
  | some x =>
    rw [UpdatePullRequest_of_some hg]
    apply foldl_preserves IdxNodup _ (fun st r hst => idxNodup_addIndex st r pr.ID hst)
    have h1 : IdxNodup (x.AssignedReviewers.foldl (fun st r => dropIndex st r pr.ID) s) :=
      foldl_preserves IdxNodup _ (fun st r hst => idxNodup_dropIndex st r pr.ID hst) _ _ h
    exact h1

theorem StoreReachable.idxNodup {s : MemoryStore} (h : StoreReachable s) : IdxNodup s := by
  induction h with
  | init =>
    intro r e he
    simp [NewMemoryStore, GoMap.get] at he
  | saveTeam team _ ih => exact idxNodup_of_frame ih (SaveTeam_idx _ team)
  | setUserActive id active _ ih => exact idxNodup_of_frame ih (SetUserActive_idx _ id active)
  | savePullRequest pr _ ih => exact idxNodup_SavePullRequest _ pr ih
  | updatePullRequest pr _ ih => exact idxNodup_UpdatePullRequest _ pr ih

theorem idLE_total (a b : PullRequestShort) : idLE a b ∨ idLE b a :=
  le_total a.ID.data b.ID.data

theorem idLE_trans (a b c : PullRequestShort) (h1 : idLE a b) (h2 : idLE b c) : idLE a c :=
  le_trans h1 h2

theorem sortByID_perm (l : List PullRequestShort) : (sortByID l).Perm l :=
  List.perm_insertionSort idLE l

theorem mem_sortByID (l : List PullRequestShort) (x : PullRequestShort) :
    x ∈ sortByID l ↔ x ∈ l :=
  (sortByID_perm l).mem_iff

theorem sortByID_sorted (l : List PullRequestShort) : (sortByID l).Pairwise idLE :=
  @List.sorted_insertionSort _ idLE _ ⟨idLE_total⟩ ⟨idLE_trans⟩ l

/-- Sorting records with pairwise distinct ids gives a strictly ascending
list. -/
theorem sortByID_strict {l : List PullRequestShort} (h : (l.map (fun x => x.ID)).Nodup) :
    (sortByID l).Pairwise idLT := by
  have h1 : ((sortByID l).map (fun x => x.ID)).Nodup :=
    ((sortByID_perm l).map _).nodup_iff.2 h
  have h2 : (sortByID l).Pairwise (fun a b => a.ID ≠ b.ID) := by
    have := List.pairwise_map.1 h1
    exact this
  refine List.Pairwise.imp₂ ?_ (sortByID_sorted l) h2
  intro a b hab hne
  unfold idLE at hab
  unfold idLT
  rcases lt_or_eq_of_le hab with h3 | h3
  · exact h3
  · exact absurd (String.ext h3) hne

theorem eq_of_perm_of_strict {l1 l2 : List PullRequestShort} (hp : l1.Perm l2)
    (h1 : l1.Pairwise idLT) (h2 : l2.Pairwise idLT) : l1 = l2 :=
  @List.eq_of_perm_of_sorted _ idLT ⟨fun a b hab hba => absurd hba (lt_asymm hab)⟩ l1 l2 hp h1 h2

theorem nodup_of_strict {l : List PullRequestShort} (h : l.Pairwise idLT) : l.Nodup := by
  refine List.Pairwise.imp ?_ h
  intro a b hab e
  rw [e] at hab
  exact lt_irrefl _ hab

theorem ListReviewAssignments_of_user {s : MemoryStore} {userID : String} {user : User}
    (h : s.users.get userID = some user) :
    ListReviewAssignments s userID =
      .ok (sortByID (((s.userPRsIdx.get userID).getD []).filterMap
        (fun prID => (s.prs.get prID).map PullRequest.ToShort))) := by
  simp [ListReviewAssignments, h]

theorem ListReviewAssignments_of_no_user {s : MemoryStore} {userID : String}
    (h : s.users.get userID = none) :
    ListReviewAssignments s userID = .error Err.ErrUserNotFound := by
  simp [ListReviewAssignments, h]

/-- The ids of the projections collected from an index entry are ids of the
entry, in entry order. -/
theorem collected_ids {s : MemoryStore} (hk : Keyed s) (e : List String) :
    List.Sublist ((e.filterMap (fun prID => (s.prs.get prID).map PullRequest.ToShort)).map
      (fun x => x.ID)) e := by
  induction e with
  | nil => simp
  | cons p t ih =>
    cases hg : s.prs.get p with
    | none =>
      simp only [List.filterMap_cons, hg, Option.map_none']
      exact List.Sublist.cons _ ih
    | some P =>
      have hid : P.ID = p := hk.prs p P hg
      simp only [List.filterMap_cons, hg, Option.map_some', List.map_cons]
      have e1 : P.ToShort.ID = p := hid
      rw [e1]
      exact List.Sublist.cons₂ _ ih

theorem mem_collected (s : MemoryStore) (e : List String) (x : PullRequestShort) :
    x ∈ e.filterMap (fun prID => (s.prs.get prID).map PullRequest.ToShort) ↔
      ∃ prID ∈ e, ∃ P, s.prs.get prID = some P ∧ x = P.ToShort := by
  simp only [List.mem_filterMap, Option.map_eq_some']
  constructor
  · rintro ⟨p, hp, P, hP, rfl⟩
    exact ⟨p, hp, P, hP, rfl⟩
  · rintro ⟨p, hp, P, hP, rfl⟩
    exact ⟨p, hp, P, hP, rfl⟩

theorem stored_ids_eq_keys {s : MemoryStore} (hk : Keyed s) :
    s.prs.values.map (fun P => P.ID) = s.prs.keys := by
  unfold GoMap.values GoMap.keys
  rw [List.map_map]
  apply List.map_congr_left
  intro e he
  obtain ⟨k, P⟩ := e
  exact hk.prs k P ((GoMap.mem_iff_get s.prs hk.prsNodup k P).1 he)

theorem mem_values_iff {s : MemoryStore} (hk : Keyed s) (P : PullRequest) :
    P ∈ s.prs.values ↔ s.prs.get P.ID = some P := by
  unfold GoMap.values
  constructor
  · intro h
    obtain ⟨e, he, rfl⟩ := List.mem_map.1 h
    obtain ⟨k, Q⟩ := e
    have hg := (GoMap.mem_iff_get s.prs hk.prsNodup k Q).1 he
    have hid : Q.ID = k := hk.prs k Q hg
    show s.prs.get Q.ID = some Q
    rw [hid]; exact hg
  · intro h
    exact List.mem_map.2 ⟨(P.ID, P), (GoMap.mem_iff_get s.prs hk.prsNodup P.ID P).2 h, rfl⟩

end Avito

namespace Avito

open MemoryStore Service

theorem entry_nodup {s : MemoryStore} (h : IdxNodup s) (userID : String) :
    ((s.userPRsIdx.get userID).getD []).Nodup := by
  cases hg : s.userPRsIdx.get userID with
  | none => simp
  | some e => simpa using h userID e hg

theorem collected_ids_nodup {s : MemoryStore} (hk : Keyed s) (hn : IdxNodup s)
    (userID : String) :
    ((((s.userPRsIdx.get userID).getD []).filterMap
      (fun prID => (s.prs.get prID).map PullRequest.ToShort)).map (fun x => x.ID)).Nodup :=
  List.Nodup.sublist (collected_ids hk _) (entry_nodup hn userID)

theorem reviewed_ids_nodup {s : MemoryStore} (hk : Keyed s) (userID : String) :
    (((s.prs.values.filter (fun P => decide (userID ∈ P.AssignedReviewers))).map
      PullRequest.ToShort).map (fun x => x.ID)).Nodup := by
  rw [List.map_map]
  have h1 : ((fun x : PullRequestShort => x.ID) ∘ PullRequest.ToShort) =
      (fun P : PullRequest => P.ID) := rfl
  rw [h1]
  have h2 : (s.prs.values.map (fun P => P.ID)).Nodup := by
    rw [stored_ids_eq_keys hk]; exact hk.prsNodup
  exact List.Nodup.sublist (List.Sublist.map _ (List.filter_sublist _)) h2

/-- In a state with a consistent index, the projections collected from the
index entry of a user are those of the stored pull requests that list the
user as a reviewer. -/
theorem collected_perm_reviewed {s : MemoryStore} (hk : Keyed s) (hn : IdxNodup s)
    (hi : IndexConsistent s) (userID : String) :
    (((s.userPRsIdx.get userID).getD []).filterMap
      (fun prID => (s.prs.get prID).map PullRequest.ToShort)).Perm
    ((s.prs.values.filter (fun P => decide (userID ∈ P.AssignedReviewers))).map
      PullRequest.ToShort) := by
  refine (List.perm_ext_iff_of_nodup (List.Nodup.of_map _ (collected_ids_nodup hk hn userID))
    (List.Nodup.of_map _ (reviewed_ids_nodup hk userID))).2 ?_
  intro x
  rw [mem_collected]
  simp only [List.mem_map, List.mem_filter, decide_eq_true_eq]
  constructor
  · rintro ⟨p, hp, P, hP, rfl⟩
    obtain ⟨Q, hQ, _, hmem⟩ := hi.2 userID p hp
    rw [hP] at hQ
    cases hQ
    have hid : P.ID = p := hk.prs p P hP
    exact ⟨P, ⟨(mem_values_iff hk P).2 (by rw [hid]; exact hP), hmem⟩, rfl⟩
  · rintro ⟨P, ⟨hP, hmem⟩, rfl⟩
    have hg := (mem_values_iff hk P).1 hP
    exact ⟨P.ID, hi.1 P.ID P hg userID hmem, P, hg, rfl⟩

/-- The method `ToShort` computes the specified projection. -/
theorem ToShort_eq_shortProjection (P : PullRequest) : P.ToShort = shortProjection P := rfl

/-- C9: in every reachable store state ListReviewAssignments fails with
ErrUserNotFound exactly when the user is not stored; otherwise it returns
exactly the short projections of the stored pull requests whose id is in the
index entry of the user (none when there is no entry), where the projection of
a pull request carries its id, its name, its author id and its status; each
occurs once, in strictly ascending order of id, and the list equals the
specification `reviewsOf`: the id-sorted projections (id, name, author id,
status) of all stored pull requests whose reviewers contain the user. -/
theorem list_review_assignments_contract (s : MemoryStore) (hs : StoreReachable s)
    (userID : String) :
    (ListReviewAssignments s userID = .error Err.ErrUserNotFound ↔
      s.users.get userID = none) ∧
    (∀ user, s.users.get userID = some user →
      ∃ result, ListReviewAssignments s userID = .ok result ∧
        (∀ x, x ∈ result ↔ ∃ prID ∈ (s.userPRsIdx.get userID).getD [],
          ∃ P, s.prs.get prID = some P ∧
            x.ID = P.ID ∧ x.Name = P.Name ∧ x.AuthorID = P.AuthorID ∧ x.Status = P.Status) ∧
        (∀ x, x ∈ result ↔ ∃ P, (∃ k, s.prs.get k = some P) ∧
          userID ∈ P.AssignedReviewers ∧
            x.ID = P.ID ∧ x.Name = P.Name ∧ x.AuthorID = P.AuthorID ∧ x.Status = P.Status) ∧
        result.Nodup ∧ result.Pairwise idLT ∧ result = reviewsOf s userID) := by
  have hfields : ∀ (x : PullRequestShort) (P : PullRequest),
      x = P.ToShort ↔
        (x.ID = P.ID ∧ x.Name = P.Name ∧ x.AuthorID = P.AuthorID ∧ x.Status = P.Status) := by
    intro x P
    constructor
    · intro e
      rw [e]
      exact ⟨rfl, rfl, rfl, rfl⟩
    · rintro ⟨h1, h2, h3, h4⟩
      cases x
      simp only [PullRequest.ToShort] at *
      rw [h1, h2, h3, h4]
  constructor
  · constructor
    · intro h
      cases hu : s.users.get userID with
      | none => rfl
      | some user =>
        rw [ListReviewAssignments_of_user hu] at h
        cases h
    · exact ListReviewAssignments_of_no_user
  · intro user hu
    have hstrict := sortByID_strict (collected_ids_nodup hs.keyed hs.idxNodup userID)
    have hmem : ∀ x, x ∈ sortByID (((s.userPRsIdx.get userID).getD []).filterMap
        (fun prID => (s.prs.get prID).map PullRequest.ToShort)) ↔
        ∃ prID ∈ (s.userPRsIdx.get userID).getD [],
          ∃ P, s.prs.get prID = some P ∧
            x.ID = P.ID ∧ x.Name = P.Name ∧ x.AuthorID = P.AuthorID ∧ x.Status = P.Status := by
      intro x
      rw [mem_sortByID, mem_collected]
      constructor
      · rintro ⟨p, hp, P, hP, hx⟩
        exact ⟨p, hp, P, hP, (hfields x P).1 hx⟩
      · rintro ⟨p, hp, P, hP, hx⟩
        exact ⟨p, hp, P, hP, (hfields x P).2 hx⟩
    refine ⟨_, ListReviewAssignments_of_user hu, hmem, ?_, nodup_of_strict hstrict, hstrict, ?_⟩
    · intro x
      rw [hmem]
      constructor
      · rintro ⟨p, hp, P, hP, hx⟩
        obtain ⟨Q, hQ, _, hr⟩ := hs.indexConsistent.2 userID p hp
        rw [hP] at hQ
        cases hQ
        exact ⟨P, ⟨p, hP⟩, hr, hx⟩
      · rintro ⟨P, ⟨k, hP⟩, hr, hx⟩
        have hid : P.ID = k := hs.keyed.prs k P hP
        exact ⟨P.ID, hs.indexConsistent.1 k P hP userID hr, P, by rw [hid]; exact hP, hx⟩
    · have hspec : reviewsOf s userID = sortByID ((s.prs.values.filter
          (fun P => decide (userID ∈ P.AssignedReviewers))).map PullRequest.ToShort) := by
        unfold reviewsOf
        have e : shortProjection = PullRequest.ToShort := by
          funext P
          exact (ToShort_eq_shortProjection P).symm
        rw [e]
      rw [hspec]
      apply eq_of_perm_of_strict _ hstrict (sortByID_strict (reviewed_ids_nodup hs.keyed userID))
      exact ((sortByID_perm _).trans
        (collected_perm_reviewed hs.keyed hs.idxNodup hs.indexConsistent userID)).trans
        (sortByID_perm _).symm

/-- Witness of C9: the reviews of B in the store holding "PR1" reviewed by B
are the single record with the id, name, author and status of "PR1". -/
theorem list_review_assignments_contract_witness :
    StoreReachable Example.reviewedStore ∧
    ∃ result, ListReviewAssignments Example.reviewedStore "B" = .ok result ∧
      result = reviewsOf Example.reviewedStore "B" ∧
      reviewsOf Example.reviewedStore "B" =
        [{ ID := "PR1", Name := "first", AuthorID := "A", Status := "OPEN" }] :=
  ⟨Example.reviewedStore_reachable,
   match (list_review_assignments_contract Example.reviewedStore
      Example.reviewedStore_reachable "B").2 ⟨"B", "bob", "core", true⟩ (by decide) with
   | ⟨result, h1, _, _, _, _, h2⟩ => ⟨result, h1, h2, by decide⟩⟩

end Avito

namespace Avito

open MemoryStore Service

/-! ## Reviewers are stored users in the states reachable through the service -/

theorem materialize_users_some (tn : String) (m : TeamMember) (s : MemoryStore) (r : String)
    (h : ∃ u, s.users.get r = some u) : ∃ u, (materialize s tn m).users.get r = some u := by
  rw [materialize_users_get]
  by_cases e : m.UserID = r
  · simp [e]
  · simp only [e, if_false]; exact h

theorem SaveTeam_users_some (s : MemoryStore) (team : Team) (r : String)
    (h : ∃ u, s.users.get r = some u) : ∃ u, (SaveTeam s team).2.users.get r = some u := by
  unfold SaveTeam
  split
  · exact h
  · exact foldl_preserves (fun st => ∃ u, st.users.get r = some u) _
      (fun st m hst => materialize_users_some team.Name m st r hst) team.Members
      { s with teams := s.teams.set team.Name team } h

theorem SetUserActive_users_some (s : MemoryStore) (id : String) (active : Bool) (r : String)
    (h : ∃ u, s.users.get r = some u) :
    ∃ u, (MemoryStore.SetUserActive s id active).2.users.get r = some u := by
  unfold MemoryStore.SetUserActive
  split
  · exact h
  · simp only [GoMap.get_set]
    by_cases e : id = r
    · simp [e]
    · simp only [e, if_false]; exact h

namespace Service

/-- The outcomes of `CreatePullRequest` in a state whose records are stored
under their own ids: an error that leaves the state as it is, or the saving of
the opened request whose reviewers are stored users. -/
theorem CreatePullRequest_outcome {s : MemoryStore} (hk : Keyed s) (rand : Rand) (now : Nat)
    (pr : PullRequest) :
    (∃ err, CreatePullRequest s rand now pr = (.error err, s)) ∨
    ∃ ids, s.prs.get pr.ID = none ∧
      CreatePullRequest s rand now pr =
        (.ok (some (opened pr ids now)), (SavePullRequest s (opened pr ids now)).2) ∧
      ∀ r ∈ ids, ∃ u, s.users.get r = some u := by
  cases ha : s.users.get pr.AuthorID with
  | none => exact Or.inl ⟨_, CreatePullRequest_no_author rand now ha⟩
  | some author =>
    cases hx : s.prs.get pr.ID with
    | some x => exact Or.inl ⟨_, CreatePullRequest_exists rand now ha hx⟩
    | none =>
      right
      obtain ⟨reviewers, h1, h2, h⟩ := CreatePullRequest_fresh rand now ha hx
      refine ⟨reviewerIDs reviewers, rfl, h, ?_⟩
      intro r hr
      obtain ⟨u, hu, hur⟩ := List.mem_map.1 hr
      cases ht : s.teams.get author.TeamName with
      | none =>
        rw [h2 ht] at hu
        cases hu
      | some team =>
        rw [h1 team ht] at hu
        obtain ⟨_, _, e3, _⟩ := mem_select hk hu
        exact ⟨u, hur ▸ e3⟩

theorem step_users_some (s : MemoryStore) (hk : Keyed s) (op : Op) (r : String)
    (h : ∃ u, s.users.get r = some u) : ∃ u, (step s op).users.get r = some u := by
  cases op with
  | createTeam team =>
    show ∃ u, (CreateTeam s team).2.users.get r = some u
    rw [CreateTeam_state]
    exact SaveTeam_users_some s team r h
  | getTeam name => exact h
  | setUserActive userID active =>
    show ∃ u, (Service.SetUserActive s userID active).2.users.get r = some u
    rw [SetUserActive_eq]
    exact SetUserActive_users_some s userID active r h
  | createPullRequest rand now pr =>
    show ∃ u, (CreatePullRequest s rand now pr).2.users.get r = some u
    rcases CreatePullRequest_state s rand now pr with e | ⟨ids, _, e⟩
    · rw [e]; exact h
    · rw [e, SavePullRequest_users]; exact h
  | mergePullRequest now id =>
    show ∃ u, (MergePullRequest s now id).2.users.get r = some u
    rcases MergePullRequest_state hk now id with e | ⟨p, _, _, e⟩
    · rw [e]; exact h
    · rw [e, UpdatePullRequest_users]; exact h
  | reassignReviewer rand prID old =>
    show ∃ u, (ReassignReviewer s rand prID old).2.users.get r = some u
    rcases ReassignReviewer_state hk rand prID old with e | ⟨p, idx, newID, _, _, e⟩
    · rw [e]; exact h
    · rw [e, UpdatePullRequest_users]; exact h
  | listUserReviews userID => exact h

/-- The reviewers of a record stored after a call of the service were stored
users before the call. -/
theorem step_reviewers (s : MemoryStore) (hk : Keyed s) (hr : ReviewersStored s) (op : Op)
    (k : String) (P : PullRequest) (hP : (step s op).prs.get k = some P) :
    ∀ r ∈ P.AssignedReviewers, ∃ u, s.users.get r = some u := by
  cases op with
  | createTeam team =>
    have hP2 : (CreateTeam s team).2.prs.get k = some P := hP
    rw [CreateTeam_state, SaveTeam_prs] at hP2
    exact hr k P hP2
  | getTeam name => exact hr k P hP
  | setUserActive userID active =>
    have hP2 : (Service.SetUserActive s userID active).2.prs.get k = some P := hP
    rw [SetUserActive_eq, SetUserActive_prs] at hP2
    exact hr k P hP2
  | createPullRequest rand now pr =>
    have hP2 : (CreatePullRequest s rand now pr).2.prs.get k = some P := hP
    rcases CreatePullRequest_outcome hk rand now pr with ⟨err, e⟩ | ⟨ids, hx, e, hids⟩
    · rw [e] at hP2
      exact hr k P hP2
    · have hx2 : s.prs.get (opened pr ids now).ID = none := hx
      rw [e, SavePullRequest_prs_of_none hx2, GoMap.get_set] at hP2
      by_cases hkk : (opened pr ids now).ID = k
      · simp only [hkk, if_true, Option.some.injEq] at hP2
        rw [← hP2]
        exact hids
      · simp only [hkk, if_false] at hP2
        exact hr k P hP2
  | mergePullRequest now id =>
    have hP2 : (MergePullRequest s now id).2.prs.get k = some P := hP
    rcases MergePullRequest_cases s now id with ⟨_, e⟩ | ⟨p, _, _, e⟩ | ⟨p, hp, hm, _⟩
    · rw [e] at hP2; exact hr k P hP2
    · rw [e] at hP2; exact hr k P hP2
    · obtain ⟨e1, e2⟩ := MergePullRequest_open hk now hp hm
      rw [e1, e2, GoMap.get_set] at hP2
      by_cases hkk : id = k
      · simp only [hkk, if_true, Option.some.injEq] at hP2
        rw [← hP2]
        exact hr id p hp
      · simp only [hkk, if_false] at hP2
        exact hr k P hP2
  | reassignReviewer rand prID old =>
    have hP2 : (ReassignReviewer s rand prID old).2.prs.get k = some P := hP
    cases hre : ReassignReviewer s rand prID old with
    | mk res s1 =>
      rw [hre] at hP2
      cases res with
      | error err =>
        rcases ReassignReviewer_state hk rand prID old with e | ⟨p, idx, newID, hp, _, e⟩
        · rw [hre] at e
          have e2 : s1 = s := e
          rw [e2] at hP2
          exact hr k P hP2
        · rcases ReassignReviewer_cases s rand prID old with ⟨err2, he⟩ | ⟨p2, idx2, reviewer,
            replacement, rest, hp2, _, _, _, _, he⟩
          · rw [hre] at he
            cases he
            exact hr k P hP2
          · have hid : p2.ID = prID := hk.prs prID p2 hp2
            have hg : s.prs.get (PullRequest.ID
                { p2 with AssignedReviewers := p2.AssignedReviewers.set idx2 replacement.ID })
                = some p2 := by
              show s.prs.get p2.ID = some p2
              rw [hid]; exact hp2
            rw [he, UpdatePullRequest_of_some hg] at hre
            cases hre
      | ok v =>
        obtain ⟨pr1, newID⟩ := v
        obtain ⟨p, idx, _, team, n, u, hp, _, _, _, _, hmem, hu, hpr1, _, hprs⟩ :=
          ReassignReviewer_ok hk hre
        have hP3 : s1.prs.get k = some P := hP2
        rw [hprs, GoMap.get_set] at hP3
        by_cases hkk : prID = k
        · simp only [hkk, if_true, Option.some.injEq] at hP3
          rw [← hP3, hpr1]
          intro r hrm
          have hrm2 : r ∈ p.AssignedReviewers.set idx newID := hrm
          rcases List.mem_or_eq_of_mem_set hrm2 with h1 | h1
          · exact hr prID p hp r h1
          · obtain ⟨_, _, e3, _⟩ := mem_select hk hmem
            exact ⟨u, by rw [h1, ← hu]; exact e3⟩
        · simp only [hkk, if_false] at hP3
          exact hr k P hP3
  | listUserReviews userID => exact hr k P hP

theorem Reachable.reviewersStored {s : MemoryStore} (h : Reachable s) : ReviewersStored s := by
  induction h with
  | init =>
    intro k P hP
    simp [NewMemoryStore, GoMap.get] at hP
  | step op hs ih =>
    intro k P hP r hr
    exact step_users_some _ hs.storeReachable.keyed op r
      (step_reviewers _ hs.storeReachable.keyed ih op k P hP r hr)

end Service

end Avito

namespace Avito

open MemoryStore Service

/-! ## Claim on the review lists after a write -/

theorem listed_of_reviewer {s : MemoryStore} (hk : Keyed s) (hi : IndexConsistent s)
    {k r : String} {P : PullRequest} {u : User} (hP : s.prs.get k = some P)
    (hr : r ∈ P.AssignedReviewers) (hu : s.users.get r = some u) :
    ∃ L, ListUserReviews s r = .ok L ∧ ∃ x ∈ L, x.ID = P.ID := by
  refine ⟨_, ListReviewAssignments_of_user hu, P.ToShort, ?_, rfl⟩
  rw [mem_sortByID, mem_collected]
  have hid : P.ID = k := hk.prs k P hP
  exact ⟨P.ID, hi.1 k P hP r hr, P, by rw [hid]; exact hP, rfl⟩

theorem not_listed_of_not_reviewer {s : MemoryStore} (hk : Keyed s) (hi : IndexConsistent s)
    {k r : String} {P : PullRequest} {u : User} (hP : s.prs.get k = some P)
    (hr : r ∉ P.AssignedReviewers) (hu : s.users.get r = some u) :
    ∃ L, ListUserReviews s r = .ok L ∧ ∀ x ∈ L, x.ID ≠ P.ID := by
  refine ⟨_, ListReviewAssignments_of_user hu, ?_⟩
  intro x hx e
  rw [mem_sortByID, mem_collected] at hx
  obtain ⟨p, hp, Q, hQ, rfl⟩ := hx
  have hQid : Q.ID = p := hk.prs p Q hQ
  have hPid : P.ID = k := hk.prs k P hP
  have e2 : Q.ID = P.ID := e
  obtain ⟨Q2, hQ2, _, hmem⟩ := hi.2 r p hp
  have e3 : p = k := by rw [← hQid, e2, hPid]
  rw [e3, hP] at hQ2
  cases hQ2
  exact hr hmem

/-- C10: in every state reachable through the service, right after a
successful CreatePullRequest, MergePullRequest or ReassignReviewer returning
pull request P, ListUserReviews succeeds for every reviewer of P and its
result holds an entry with the id of P; and after a successful
ReassignReviewer, ListUserReviews of every user that was a reviewer before and
is none now succeeds and holds no entry with the id of P. -/
theorem reviews_follow_assignment (s : MemoryStore) (hs : Service.Reachable s) :
    (∀ rand now pr P, (CreatePullRequest s rand now pr).1 = .ok (some P) →
      ∀ r ∈ P.AssignedReviewers,
        ∃ L, ListUserReviews (CreatePullRequest s rand now pr).2 r = .ok L ∧
          ∃ x ∈ L, x.ID = P.ID) ∧
    (∀ now id P, (MergePullRequest s now id).1 = .ok P →
      ∀ r ∈ P.AssignedReviewers,
        ∃ L, ListUserReviews (MergePullRequest s now id).2 r = .ok L ∧
          ∃ x ∈ L, x.ID = P.ID) ∧
    (∀ rand prID old P newID, (ReassignReviewer s rand prID old).1 = .ok (P, newID) →
      (∀ r ∈ P.AssignedReviewers,
        ∃ L, ListUserReviews (ReassignReviewer s rand prID old).2 r = .ok L ∧
          ∃ x ∈ L, x.ID = P.ID) ∧
      (∀ prev, s.prs.get prID = some prev → ∀ r ∈ prev.AssignedReviewers,
        r ∉ P.AssignedReviewers →
        ∃ L, ListUserReviews (ReassignReviewer s rand prID old).2 r = .ok L ∧
          ∀ x ∈ L, x.ID ≠ P.ID)) := by
  have hst := hs.storeReachable
  have hk := hst.keyed
  refine ⟨?_, ?_, ?_⟩
  · intro rand now pr P h r hr
    have hs1 : Service.Reachable (step s (.createPullRequest rand now pr)) :=
      Service.Reachable.step _ hs
    have hs2 : Service.Reachable (CreatePullRequest s rand now pr).2 := hs1
    rcases CreatePullRequest_outcome hk rand now pr with ⟨err, e⟩ | ⟨ids, hx, e, _⟩
    · rw [e] at h; cases h
    · have hP : (CreatePullRequest s rand now pr).2.prs.get pr.ID = some P := by
        have hx2 : s.prs.get (opened pr ids now).ID = none := hx
        rw [e] at h ⊢
        cases h
        rw [SavePullRequest_prs_of_none hx2]
        exact GoMap.get_set_self _ _ _
      obtain ⟨u, hu⟩ := hs2.reviewersStored pr.ID P hP r hr
      exact listed_of_reviewer hs2.storeReachable.keyed hs2.storeReachable.indexConsistent
        hP hr hu
  · intro now id P h r hr
    have hs1 : Service.Reachable (step s (.mergePullRequest now id)) :=
      Service.Reachable.step _ hs
    have hs2 : Service.Reachable (MergePullRequest s now id).2 := hs1
    have hP : (MergePullRequest s now id).2.prs.get id = some P := by
      rcases MergePullRequest_cases s now id with ⟨_, e⟩ | ⟨p, hp, _, e⟩ | ⟨p, hp, hm, _⟩
      · rw [e] at h; cases h
      · rw [e] at h ⊢
        cases h
        exact hp
      · obtain ⟨e1, e2⟩ := MergePullRequest_open hk now hp hm
        rw [e1] at h ⊢
        cases h
        rw [e2]
        exact GoMap.get_set_self _ _ _
    obtain ⟨u, hu⟩ := hs2.reviewersStored id P hP r hr
    exact listed_of_reviewer hs2.storeReachable.keyed hs2.storeReachable.indexConsistent
      hP hr hu
  · intro rand prID old P newID h
    have hs1 : Service.Reachable (step s (.reassignReviewer rand prID old)) :=
      Service.Reachable.step _ hs
    have hs2 : Service.Reachable (ReassignReviewer s rand prID old).2 := hs1
    have hfull : ReassignReviewer s rand prID old =
        (.ok (P, newID), (ReassignReviewer s rand prID old).2) := Prod.ext h rfl
    obtain ⟨p, idx, _, _, _, _, hp, _, _, _, _, _, _, _, hs1eq, hprs⟩ :=
      ReassignReviewer_ok hk hfull
    have hP : (ReassignReviewer s rand prID old).2.prs.get prID = some P := by
      rw [hprs]; exact GoMap.get_set_self _ _ _
    constructor
    · intro r hr
      obtain ⟨u, hu⟩ := hs2.reviewersStored prID P hP r hr
      exact listed_of_reviewer hs2.storeReachable.keyed hs2.storeReachable.indexConsistent
        hP hr hu
    · intro prev hprev r hr hnot
      obtain ⟨u, hu⟩ := step_users_some s hk (.reassignReviewer rand prID old) r
        (hs.reviewersStored prID prev hprev r hr)
      have hu2 : (ReassignReviewer s rand prID old).2.users.get r = some u := hu
      exact not_listed_of_not_reviewer hs2.storeReachable.keyed
        hs2.storeReachable.indexConsistent hP hnot hu2

/-- Witness of C10: after team "pair" is created, creating "PR1" authored by A
puts "PR1" in the review list of B. -/
theorem reviews_follow_assignment_witness :
    Service.Reachable (CreateTeam NewMemoryStore Example.pair).2 ∧
    ∃ L, ListUserReviews (CreatePullRequest (CreateTeam NewMemoryStore Example.pair).2
        Rand.identity 1 Example.pr1).2 "B" = .ok L ∧ ∃ x ∈ L, x.ID = "PR1" :=
  ⟨Service.Reachable.step (.createTeam Example.pair) Service.Reachable.init,
   (reviews_follow_assignment (CreateTeam NewMemoryStore Example.pair).2
      (Service.Reachable.step (.createTeam Example.pair) Service.Reachable.init)).1
      Rand.identity 1 Example.pr1 (opened Example.pr1 ["B"] 1) (by decide) "B" (by decide)⟩

end Avito

namespace Avito

open MemoryStore Service

/-! ## Teams and the users they materialize -/

theorem foldl_preserves_mem {α σ : Type} (P : σ → Prop) (f : σ → α → σ) (l : List α)
    (h : ∀ s a, a ∈ l → P s → P (f s a)) (s : σ) (hs : P s) : P (l.foldl f s) := by
  induction l generalizing s with
  | nil => exact hs
  | cons a t ih =>
    exact ih (fun s b hb => h s b (List.mem_cons_of_mem _ hb)) (f s a)
      (h s a (List.mem_cons_self _ _) hs)

theorem lastEntry_cons (m : TeamMember) (t : List TeamMember) (k : String) :
    lastEntry (m :: t) k =
      match lastEntry t k with
      | some x => some x
      | none => if m.UserID = k then some m else none := rfl

namespace MemoryStore

theorem SaveTeam_of_some {s : MemoryStore} {team x : Team}
    (h : s.teams.get team.Name = some x) : SaveTeam s team = (some Err.ErrTeamExists, s) := by
  simp [SaveTeam, h]

theorem SaveTeam_of_none {s : MemoryStore} {team : Team} (h : s.teams.get team.Name = none) :
    SaveTeam s team = (none, team.Members.foldl (fun st m => materialize st team.Name m)
      { s with teams := s.teams.set team.Name team }) := by
  simp [SaveTeam, h]

theorem SaveTeam_teams_of_none {s : MemoryStore} {team : Team}
    (h : s.teams.get team.Name = none) :
    (SaveTeam s team).2.teams = s.teams.set team.Name team := by
  rw [SaveTeam_of_none h]
  exact (materializeLoop_frame team.Name team.Members _).1

/-- The user stored under `k` after the materializing loop: the record of the
last entry with that id, or the user stored before. -/
theorem materializeLoop_users_get (tn : String) (ms : List TeamMember) (s : MemoryStore)
    (k : String) :
    (ms.foldl (fun st m => materialize st tn m) s).users.get k =
      match lastEntry ms k with
      | some m => some (userOf tn m)
      | none => s.users.get k := by
  induction ms generalizing s with
  | nil => rfl
  | cons m t ih =>
    rw [List.foldl_cons, ih (materialize s tn m), lastEntry_cons]
    cases h : lastEntry t k with
    | some x => rfl
    | none =>
      simp only [materialize_users_get]
      by_cases e : m.UserID = k
      · simp [e, userOf]
      · simp [e]

theorem SaveTeam_users_get_of_none {s : MemoryStore} {team : Team}
    (h : s.teams.get team.Name = none) (k : String) :
    (SaveTeam s team).2.users.get k =
      match lastEntry team.Members k with
      | some m => some (userOf team.Name m)
      | none => s.users.get k := by
  rw [SaveTeam_of_none h]
  exact materializeLoop_users_get team.Name team.Members _ k

end MemoryStore

theorem lastEntry_some {ms : List TeamMember} {k : String} {m : TeamMember}
    (h : lastEntry ms k = some m) : m ∈ ms ∧ m.UserID = k := by
  induction ms with
  | nil => simp [lastEntry] at h
  | cons a t ih =>
    rw [lastEntry_cons] at h
    cases ht : lastEntry t k with
    | some x =>
      rw [ht] at h
      simp only [Option.some.injEq] at h
      subst h
      exact ⟨List.mem_cons_of_mem _ (ih ht).1, (ih ht).2⟩
    | none =>
      rw [ht] at h
      by_cases e : a.UserID = k
      · simp only [e, if_true, Option.some.injEq] at h
        subst h
        exact ⟨List.mem_cons_self _ _, e⟩
      · simp [e] at h

theorem lastEntry_of_mem {ms : List TeamMember} {m : TeamMember} (h : m ∈ ms) :
    ∃ x, lastEntry ms m.UserID = some x := by
  induction ms with
  | nil => cases h
  | cons a t ih =>
    rw [lastEntry_cons]
    cases ht : lastEntry t m.UserID with
    | some x => exact ⟨x, rfl⟩
    | none =>
      rcases List.mem_cons.1 h with e | e
      · subst e
        exact ⟨m, by simp⟩
      · obtain ⟨x, hx⟩ := ih e
        rw [ht] at hx
        cases hx

/-- The last entry with an id is the one followed by no entry with that id. -/
theorem lastEntry_split (pre post : List TeamMember) (m : TeamMember)
    (h : ∀ x ∈ post, x.UserID ≠ m.UserID) :
    lastEntry (pre ++ m :: post) m.UserID = some m := by
  have hpost : lastEntry post m.UserID = none := by
    induction post with
    | nil => rfl
    | cons a t ih =>
      rw [lastEntry_cons, ih (fun x hx => h x (List.mem_cons_of_mem _ hx))]
      simp [h a (List.mem_cons_self _ _)]
  induction pre with
  | nil =>
    show lastEntry (m :: post) m.UserID = some m
    rw [lastEntry_cons, hpost]
    simp
  | cons a t ih =>
    show lastEntry (a :: (t ++ m :: post)) m.UserID = some m
    rw [lastEntry_cons, ih]

/-! ## Invariants on teams and users -/

theorem teamsKeyed_SaveTeam (s : MemoryStore) (team : Team) (h : TeamsKeyed s) :
    TeamsKeyed (SaveTeam s team).2 := by
  cases hg : s.teams.get team.Name with
  | some x => rw [SaveTeam_of_some hg]; exact h
  | none =>
    intro tn T hT
    rw [SaveTeam_teams_of_none hg, GoMap.get_set] at hT
    by_cases e : team.Name = tn
    · simp only [e, if_true, Option.some.injEq] at hT
      rw [← hT]; exact e
    · simp only [e, if_false] at hT
      exact h tn T hT

theorem teamsKeyed_of_frame {s s1 : MemoryStore} (h : TeamsKeyed s) (ht : s1.teams = s.teams) :
    TeamsKeyed s1 := by
  unfold TeamsKeyed
  rw [ht]
  exact h

theorem StoreReachable.teamsKeyed {s : MemoryStore} (h : StoreReachable s) : TeamsKeyed s := by
  induction h with
  | init =>
    intro tn T hT
    simp [NewMemoryStore, GoMap.get] at hT
  | saveTeam team _ ih => exact teamsKeyed_SaveTeam _ team ih
  | setUserActive id active _ ih => exact teamsKeyed_of_frame ih (SetUserActive_teams _ id active)
  | savePullRequest pr _ ih => exact teamsKeyed_of_frame ih (SavePullRequest_teams _ pr)
  | updatePullRequest pr _ ih => exact teamsKeyed_of_frame ih (UpdatePullRequest_teams _ pr)

theorem usersInTeams_SaveTeam (s : MemoryStore) (team : Team) (h : UsersInTeams s) :
    UsersInTeams (SaveTeam s team).2 := by
  cases hg : s.teams.get team.Name with
  | some x => rw [SaveTeam_of_some hg]; exact h
  | none =>
    intro k u hu
    rw [SaveTeam_teams_of_none hg]
    rw [SaveTeam_users_get_of_none hg] at hu
    cases hl : lastEntry team.Members k with
    | some m =>
      rw [hl] at hu
      simp only [Option.some.injEq] at hu
      rw [← hu]
      exact ⟨team, GoMap.get_set_self _ _ _, m, (lastEntry_some hl).1, (lastEntry_some hl).2⟩
    | none =>
      rw [hl] at hu
      obtain ⟨T, hT, hm⟩ := h k u hu
      refine ⟨T, ?_, hm⟩
      rw [GoMap.get_set_of_ne]
      · exact hT
      · intro e
        rw [← e, hg] at hT
        cases hT

theorem usersInTeams_SetUserActive (s : MemoryStore) (id : String) (active : Bool)
    (h : UsersInTeams s) : UsersInTeams (MemoryStore.SetUserActive s id active).2 := by
  unfold MemoryStore.SetUserActive
  split
  · exact h
  · rename_i user hu
    intro k u hk
    simp only [GoMap.get_set] at hk
    by_cases e : id = k
    · simp only [e, if_true, Option.some.injEq] at hk
      rw [← hk]
      exact e ▸ h id user hu
    · simp only [e, if_false] at hk
      exact h k u hk

theorem usersInTeams_of_frame {s s1 : MemoryStore} (h : UsersInTeams s)
    (ht : s1.teams = s.teams) (hu : s1.users = s.users) : UsersInTeams s1 := by
  unfold UsersInTeams
  rw [ht, hu]
  exact h

theorem StoreReachable.usersInTeams {s : MemoryStore} (h : StoreReachable s) :
    UsersInTeams s := by
  induction h with
  | init =>
    intro k u hu
    simp [NewMemoryStore, GoMap.get] at hu
  | saveTeam team _ ih => exact usersInTeams_SaveTeam _ team ih
  | setUserActive id active _ ih => exact usersInTeams_SetUserActive _ id active ih
  | savePullRequest pr _ ih =>
    exact usersInTeams_of_frame ih (SavePullRequest_teams _ pr) (SavePullRequest_users _ pr)
  | updatePullRequest pr _ ih =>
    exact usersInTeams_of_frame ih (UpdatePullRequest_teams _ pr) (UpdatePullRequest_users _ pr)

theorem membersStored_SaveTeam (s : MemoryStore) (team : Team) (h : MembersStored s) :
    MembersStored (SaveTeam s team).2 := by
  cases hg : s.teams.get team.Name with
  | some x => rw [SaveTeam_of_some hg]; exact h
  | none =>
    intro tn T hT m hm
    rw [SaveTeam_teams_of_none hg, GoMap.get_set] at hT
    by_cases e : team.Name = tn
    · simp only [e, if_true, Option.some.injEq] at hT
      subst hT
      obtain ⟨x, hx⟩ := lastEntry_of_mem hm
      rw [SaveTeam_users_get_of_none hg, hx]
      exact ⟨_, rfl⟩
    · simp only [e, if_false] at hT
      exact SaveTeam_users_some s team m.UserID (h tn T hT m hm)

theorem StoreReachable.membersStored {s : MemoryStore} (h : StoreReachable s) :
    MembersStored s := by
  induction h with
  | init =>
    intro tn T hT
    simp [NewMemoryStore, GoMap.get] at hT
  | saveTeam team _ ih => exact membersStored_SaveTeam _ team ih
  | setUserActive id active _ ih =>
    intro tn T hT m hm
    rw [SetUserActive_teams] at hT
    exact SetUserActive_users_some _ id active m.UserID (ih tn T hT m hm)
  | savePullRequest pr _ ih =>
    intro tn T hT m hm
    rw [SavePullRequest_teams] at hT
    rw [SavePullRequest_users]
    exact ih tn T hT m hm
  | updatePullRequest pr _ ih =>
    intro tn T hT m hm
    rw [UpdatePullRequest_teams] at hT
    rw [UpdatePullRequest_users]
    exact ih tn T hT m hm

end Avito

namespace Avito

open MemoryStore Service

/-! ## Claims on the errors of ReassignReviewer -/

theorem UpdatePullRequest_error_state {s : MemoryStore} {pr : PullRequest} {err : Err}
    (h : (UpdatePullRequest s pr).1 = some err) : (UpdatePullRequest s pr).2 = s := by
  cases hg : s.prs.get pr.ID with
  | none => rw [UpdatePullRequest_of_none hg]
  | some x =>
    rw [UpdatePullRequest_of_some hg] at h
    cases h

theorem open_ne_merged : PRStatusOpen ≠ PRStatusMerged := by decide

theorem findReviewer_of_mem {l : List String} {old : String} (h : old ∈ l) :
    ∃ idx, findReviewer l old = some idx := by
  cases hf : findReviewer l old with
  | none => exact absurd h (findReviewer_none hf)
  | some idx => exact ⟨idx, rfl⟩

theorem mem_of_findReviewer {l : List String} {old : String} {idx : Nat}
    (h : findReviewer l old = some idx) : old ∈ l :=
  List.getElem?_mem (findReviewer_some h).2.1

theorem candidates_nil_of_not_eligible (s : MemoryStore) (ex : List String)
    (ms : List TeamMember) (h : ∀ m ∈ ms, eligible s ex m = false) :
    ms.filterMap (candidateOf s ex) = [] := by
  apply List.eq_nil_of_length_eq_zero
  rw [length_candidates]
  have : ms.filter (eligible s ex) = [] := by
    rw [List.filter_eq_nil_iff]
    intro m hm
    simp [h m hm]
  rw [this]
  rfl

/-- An error of `ReassignReviewer` leaves the store as it is. -/
theorem Service.ReassignReviewer_error_state (s : MemoryStore) (rand : Rand)
    (prID old : String) (err : Err) (h : (ReassignReviewer s rand prID old).1 = .error err) :
    (ReassignReviewer s rand prID old).2 = s := by
  rcases ReassignReviewer_cases s rand prID old with ⟨err2, he⟩ | ⟨p, idx, reviewer,
    replacement, rest, _, _, _, _, _, he⟩
  · rw [he]
  · rw [he] at h ⊢
    cases hU : UpdatePullRequest s
        { p with AssignedReviewers := p.AssignedReviewers.set idx replacement.ID } with
    | mk o s1 =>
      rw [hU] at h
      cases o with
      | none => cases h
      | some e =>
        have h2 := @UpdatePullRequest_error_state s
          { p with AssignedReviewers := p.AssignedReviewers.set idx replacement.ID } e
          (by rw [hU])
        rw [hU] at h2
        exact h2

/-- C11: for every store state and all arguments, a ReassignReviewer call that
returns an error leaves the whole store state as it was (pull requests, index,
users and teams); and ErrNoCandidate is what it returns, with the state
unchanged, when the pull request is stored with status OPEN, the old reviewer
is assigned and is a stored user of a stored team, and no member entry of that
team is active in both flags and outside the old reviewer and the assigned
reviewers. -/
theorem reassign_atomic_on_failure (s : MemoryStore) (rand : Rand) (prID old : String) :
    (∀ err, (ReassignReviewer s rand prID old).1 = .error err →
      (ReassignReviewer s rand prID old).2 = s) ∧
    (∀ p reviewer team, s.prs.get prID = some p → p.Status = PRStatusOpen →
      old ∈ p.AssignedReviewers → s.users.get old = some reviewer →
      s.teams.get reviewer.TeamName = some team →
      (∀ m ∈ team.Members, eligible s (old :: p.AssignedReviewers) m = false) →
      ReassignReviewer s rand prID old = (.error Err.ErrNoCandidate, s)) := by
  constructor
  · exact Service.ReassignReviewer_error_state s rand prID old
  · intro p reviewer team hp hst hold hu ht hnone
    have hm : ¬ p.Status = PRStatusMerged := by rw [hst]; exact open_ne_merged
    obtain ⟨idx, hf⟩ := findReviewer_of_mem hold
    have hsel : SelectRandomActiveMembers s rand reviewer.TeamName
        (old :: p.AssignedReviewers) 1 = .ok [] := by
      rw [select_one ht, candidates_nil_of_not_eligible s _ _ hnone,
        List.perm_nil.1 (rand.shuffle_perm [])]
      rfl
    simp [ReassignReviewer, GetPullRequest, GetUser, hp, hm, hf, hu, hsel]

/-- Witness of C11: with A deactivated, reassigning B on "PR1" finds no
candidate in team "core" and leaves the store as it is. -/
theorem reassign_atomic_on_failure_witness :
    ReassignReviewer Example.quietStore Rand.reversing "PR1" "B" =
      (.error Err.ErrNoCandidate, Example.quietStore) :=
  (reassign_atomic_on_failure Example.quietStore Rand.reversing "PR1" "B").2
    Example.reviewed ⟨"B", "bob", "core", true⟩ Example.core
    (by decide) (by decide) (by decide) (by decide) (by decide) (by decide)

theorem Service.run_storeReachable {s : MemoryStore} (hs : StoreReachable s) (ops : List Op) :
    StoreReachable (run s ops) := by
  induction ops generalizing s with
  | nil => exact hs
  | cons op t ih => exact ih (step_storeReachable hs op)

theorem Service.run_keeps_merged {s : MemoryStore} (hs : StoreReachable s) (ops : List Op)
    {k : String} {P : PullRequest} (hP : s.prs.get k = some P)
    (hm : P.Status = PRStatusMerged) : (run s ops).prs.get k = some P := by
  induction ops generalizing s with
  | nil => exact hP
  | cons op t ih =>
    exact ih (step_storeReachable hs op) (Service.step_keeps_merged hs op hP hm)

theorem Service.ReassignReviewer_of_merged {s : MemoryStore} (rand : Rand) {prID : String}
    (old : String) {p : PullRequest} (hp : s.prs.get prID = some p)
    (hm : p.Status = PRStatusMerged) :
    ReassignReviewer s rand prID old = (.error Err.ErrPRMerged, s) := by
  simp [ReassignReviewer, GetPullRequest, hp, hm]

/-- C12: in every store state that holds pull request `prID` with status
MERGED, ReassignReviewer returns ErrPRMerged for every old reviewer id and
every shuffle, and leaves the state as it is; and after a successful
MergePullRequest on `prID` in a reachable state, every ReassignReviewer on
`prID` that follows, after any further calls of the service, returns
ErrPRMerged. -/
theorem reassign_on_merged (s : MemoryStore) (prID : String) :
    (∀ p, s.prs.get prID = some p → p.Status = PRStatusMerged →
      ∀ rand old, ReassignReviewer s rand prID old = (.error Err.ErrPRMerged, s)) ∧
    (StoreReachable s → ∀ now m, (MergePullRequest s now prID).1 = .ok m →
      ∀ ops rand old,
        (ReassignReviewer (run (MergePullRequest s now prID).2 ops) rand prID old).1 =
          .error Err.ErrPRMerged) := by
  constructor
  · intro p hp hm rand old
    exact Service.ReassignReviewer_of_merged rand old hp hm
  · intro hs now m hmerge ops rand old
    have hs1 : StoreReachable (MergePullRequest s now prID).2 :=
      step_storeReachable hs (.mergePullRequest now prID)
    have hstored : ∃ P, (MergePullRequest s now prID).2.prs.get prID = some P ∧
        P.Status = PRStatusMerged := by
      rcases MergePullRequest_cases s now prID with ⟨_, e⟩ | ⟨p, hp, hpm, e⟩ | ⟨p, hp, hpm, _⟩
      · rw [e] at hmerge; cases hmerge
      · rw [e]; exact ⟨p, hp, hpm⟩
      · obtain ⟨e1, e2⟩ := MergePullRequest_open hs.keyed now hp hpm
        rw [e1, e2]
        exact ⟨_, GoMap.get_set_self _ _ _, rfl⟩
    obtain ⟨P, hP, hPm⟩ := hstored
    rw [Service.ReassignReviewer_of_merged rand old
      (Service.run_keeps_merged hs1 ops hP hPm) hPm]

/-- Witness of C12: reassigning on the merged "PR1", for a reviewer that is
assigned and for an id that is no user. -/
theorem reassign_on_merged_witness :
    ReassignReviewer Example.mergedStore Rand.identity "PR1" "B" =
      (.error Err.ErrPRMerged, Example.mergedStore) ∧
    (ReassignReviewer (run (MergePullRequest Example.reviewedStore 9 "PR1").2
      [.setUserActive "C" true]) Rand.identity "PR1" "nobody").1 = .error Err.ErrPRMerged :=
  ⟨(reassign_on_merged Example.mergedStore "PR1").1 Example.merged (by decide) (by decide)
     Rand.identity "B",
   (reassign_on_merged Example.reviewedStore "PR1").2 Example.reviewedStore_reachable 9
     Example.merged (by decide) [.setUserActive "C" true] Rand.identity "nobody"⟩

/-- C13: in every state reachable through the service, ReassignReviewer
succeeds or returns one of ErrPRNotFound, ErrPRMerged, ErrReviewerMissing and
ErrNoCandidate; ErrPRNotFound is returned only when the pull request is not
stored (never by the final UpdatePullRequest); an assigned old reviewer is a
stored user whose team is stored, so that neither ErrUserNotFound nor
ErrTeamNotFound is returned. -/
theorem reassign_error_set (s : MemoryStore) (hs : Service.Reachable s) (rand : Rand)
    (prID old : String) :
    ((∃ P newID, (ReassignReviewer s rand prID old).1 = .ok (P, newID)) ∨
      (ReassignReviewer s rand prID old).1 = .error Err.ErrPRNotFound ∨
      (ReassignReviewer s rand prID old).1 = .error Err.ErrPRMerged ∨
      (ReassignReviewer s rand prID old).1 = .error Err.ErrReviewerMissing ∨
      (ReassignReviewer s rand prID old).1 = .error Err.ErrNoCandidate) ∧
    ((ReassignReviewer s rand prID old).1 = .error Err.ErrPRNotFound →
      s.prs.get prID = none) ∧
    (∀ p, s.prs.get prID = some p → old ∈ p.AssignedReviewers →
      ∃ reviewer team, s.users.get old = some reviewer ∧
        s.teams.get reviewer.TeamName = some team) ∧
    (ReassignReviewer s rand prID old).1 ≠ .error Err.ErrUserNotFound ∧
    (ReassignReviewer s rand prID old).1 ≠ .error Err.ErrTeamNotFound := by
  have hst := hs.storeReachable
  have hteam : ∀ p, s.prs.get prID = some p → old ∈ p.AssignedReviewers →
      ∃ reviewer team, s.users.get old = some reviewer ∧
        s.teams.get reviewer.TeamName = some team := by
    intro p hp hold
    obtain ⟨reviewer, hu⟩ := hs.reviewersStored prID p hp old hold
    obtain ⟨team, ht, _⟩ := hst.usersInTeams old reviewer hu
    exact ⟨reviewer, team, hu, ht⟩
  have hcases : (s.prs.get prID = none ∧
        (ReassignReviewer s rand prID old).1 = .error Err.ErrPRNotFound) ∨
      (∃ p, s.prs.get prID = some p ∧
        ((ReassignReviewer s rand prID old).1 = .error Err.ErrPRMerged ∨
         (ReassignReviewer s rand prID old).1 = .error Err.ErrReviewerMissing ∨
         (ReassignReviewer s rand prID old).1 = .error Err.ErrNoCandidate ∨
         ∃ P newID, (ReassignReviewer s rand prID old).1 = .ok (P, newID))) := by
    cases hg : s.prs.get prID with
    | none =>
      left
      exact ⟨rfl, by simp [ReassignReviewer, GetPullRequest, hg]⟩
    | some p =>
      right
      refine ⟨p, rfl, ?_⟩
      by_cases hm : p.Status = PRStatusMerged
      · left
        rw [Service.ReassignReviewer_of_merged rand old hg hm]
      · cases hf : findReviewer p.AssignedReviewers old with
        | none =>
          right; left
          simp [ReassignReviewer, GetPullRequest, hg, hm, hf]
        | some idx =>
          obtain ⟨reviewer, team, hu, ht⟩ := hteam p hg (mem_of_findReviewer hf)
          have hsel := select_one ht rand (old :: p.AssignedReviewers)
          cases hc : (rand.shuffle (team.Members.filterMap
              (candidateOf s (old :: p.AssignedReviewers)))).take 1 with
          | nil =>
            right; right; left
            rw [hc] at hsel
            simp [ReassignReviewer, GetPullRequest, GetUser, hg, hm, hf, hu, hsel]
          | cons replacement rest =>
            right; right; right
            rw [hc] at hsel
            have hid : p.ID = prID := hst.keyed.prs prID p hg
            have hg2 : s.prs.get (PullRequest.ID
                { p with AssignedReviewers := p.AssignedReviewers.set idx replacement.ID })
                = some p := by
              show s.prs.get p.ID = some p
              rw [hid]; exact hg
            refine ⟨{ p with AssignedReviewers := p.AssignedReviewers.set idx replacement.ID },
              replacement.ID, ?_⟩
            simp [ReassignReviewer, GetPullRequest, GetUser, hg, hm, hf, hu, hsel,
              UpdatePullRequest_of_some hg2]
  refine ⟨?_, ?_, hteam, ?_, ?_⟩
  · rcases hcases with ⟨_, h⟩ | ⟨p, _, h | h | h | h⟩
    · exact Or.inr (Or.inl h)
    · exact Or.inr (Or.inr (Or.inl h))
    · exact Or.inr (Or.inr (Or.inr (Or.inl h)))
    · exact Or.inr (Or.inr (Or.inr (Or.inr h)))
    · exact Or.inl h
  · intro he
    rcases hcases with ⟨h0, _⟩ | ⟨p, _, h | h | h | ⟨P, newID, h⟩⟩
    · exact h0
    all_goals (rw [h] at he; cases he)
  · intro he
    rcases hcases with ⟨_, h⟩ | ⟨p, _, h | h | h | ⟨P, newID, h⟩⟩
    all_goals (rw [h] at he; cases he)
  · intro he
    rcases hcases with ⟨_, h⟩ | ⟨p, _, h | h | h | ⟨P, newID, h⟩⟩
    all_goals (rw [h] at he; cases he)

/-- Witness of C13: reassigning B on "PR1" in the store served through the
transport calls succeeds. -/
theorem reassign_error_set_witness :
    Service.Reachable Example.servedStore ∧
    (ReassignReviewer Example.servedStore Rand.identity "PR1" "B").1 ≠
      .error Err.ErrUserNotFound :=
  ⟨Service.Reachable.step
      (.createPullRequest Rand.identity 1 (Service.request "PR1" "first" "A"))
      (Service.Reachable.step (.createTeam Example.core) Service.Reachable.init),
   (reassign_error_set Example.servedStore
      (Service.Reachable.step
        (.createPullRequest Rand.identity 1 (Service.request "PR1" "first" "A"))
        (Service.Reachable.step (.createTeam Example.core) Service.Reachable.init))
      Rand.identity "PR1" "B").2.2.2.1⟩

end Avito

namespace Avito

open MemoryStore Service

/-! ## Claims on teams, users and the store mutations -/

theorem SaveTeam_none_iff (s : MemoryStore) (team : Team) :
    (SaveTeam s team).1 = none ↔ s.teams.get team.Name = none := by
  cases hg : s.teams.get team.Name with
  | some x => rw [SaveTeam_of_some hg]; simp
  | none => rw [SaveTeam_of_none hg]; simp

theorem Example.redBlueStore_reachable : StoreReachable Example.redBlueStore :=
  StoreReachable.saveTeam Example.blue (StoreReachable.saveTeam Example.red StoreReachable.init)

/-- Counterexample to C14: after team "red" and then team "blue" are saved,
both listing the user id U, team "red" is stored with member U, and GetUser
returns U with the team name "blue". -/
theorem member_team_counterexample :
    StoreReachable Example.redBlueStore ∧
    Example.redBlueStore.teams.get "red" = some Example.red ∧
    (⟨"U", "uma", true⟩ : TeamMember) ∈ Example.red.Members ∧
    GetUser Example.redBlueStore "U" = .ok ⟨"U", "uma", "blue", true⟩ ∧
    ¬ ∃ u, GetUser Example.redBlueStore "U" = .ok u ∧ u.TeamName = Example.red.Name :=
  ⟨Example.redBlueStore_reachable, by decide, by decide, by decide, by
    rintro ⟨u, hu, ht⟩
    have h : GetUser Example.redBlueStore "U" = .ok ⟨"U", "uma", "blue", true⟩ := by decide
    rw [h] at hu
    cases hu
    revert ht
    decide⟩

/-- C14, amended: in every reachable store state, for every stored team T and
every member entry U of T, GetUser(U.id) succeeds and returns a user whose
team name is the name of a stored team that lists U.id; that name is T.name
when T is the only stored team that lists U.id; and right after a successful
SaveTeam(T) it is T.name for every member of T. -/
theorem member_user_team (s : MemoryStore) (hs : StoreReachable s) :
    (∀ tn T m, s.teams.get tn = some T → m ∈ T.Members →
      ∃ u, GetUser s m.UserID = .ok u ∧
        (∃ T2, s.teams.get u.TeamName = some T2 ∧ ∃ m2 ∈ T2.Members, m2.UserID = m.UserID) ∧
        ((∀ tn2 T2, s.teams.get tn2 = some T2 →
            (∃ m2 ∈ T2.Members, m2.UserID = m.UserID) → tn2 = tn) →
          u.TeamName = T.Name)) ∧
    (∀ T m, (SaveTeam s T).1 = none → m ∈ T.Members →
      ∃ u, GetUser (SaveTeam s T).2 m.UserID = .ok u ∧ u.TeamName = T.Name) := by
  constructor
  · intro tn T m hT hm
    obtain ⟨u, hu⟩ := hs.membersStored tn T hT m hm
    obtain ⟨T2, hT2, hm2⟩ := hs.usersInTeams m.UserID u hu
    refine ⟨u, by simp [GetUser, hu], ⟨T2, hT2, hm2⟩, ?_⟩
    intro honly
    rw [hs.teamsKeyed tn T hT]
    exact honly u.TeamName T2 hT2 hm2
  · intro T m hok hm
    have hg := (SaveTeam_none_iff s T).1 hok
    obtain ⟨x, hx⟩ := lastEntry_of_mem hm
    have hu := SaveTeam_users_get_of_none hg m.UserID
    rw [hx] at hu
    exact ⟨userOf T.Name x, by simp [GetUser, hu], rfl⟩

/-- Witness of the amended C14: after "red" and "blue" are saved, the user U of
team "red" is stored and names the stored team "blue", which lists U. -/
theorem member_user_team_witness :
    StoreReachable Example.redBlueStore ∧
    ∃ u, GetUser Example.redBlueStore "U" = .ok u ∧
      ∃ T2, Example.redBlueStore.teams.get u.TeamName = some T2 ∧
        ∃ m2 ∈ T2.Members, m2.UserID = "U" :=
  ⟨Example.redBlueStore_reachable,
   match (member_user_team Example.redBlueStore Example.redBlueStore_reachable).1
      "red" Example.red ⟨"U", "uma", true⟩ (by decide) (by decide) with
   | ⟨u, h1, h2, _⟩ => ⟨u, h1, h2⟩⟩

/-- Counterexample to C15: team "twice" lists the id Y first as "yuri", active,
and then as "yara", inactive; after a successful SaveTeam the stored user Y is
"yara", inactive, and not the record of the first entry. -/
theorem first_write_counterexample :
    (SaveTeam NewMemoryStore Example.twice).1 = none ∧
    Example.twice.Members = [⟨"Y", "yuri", true⟩, ⟨"Y", "yara", false⟩] ∧
    GetUser (SaveTeam NewMemoryStore Example.twice).2 "Y" =
      .ok ⟨"Y", "yara", "twice", false⟩ ∧
    GetUser (SaveTeam NewMemoryStore Example.twice).2 "Y" ≠
      .ok (userOf "twice" ⟨"Y", "yuri", true⟩) :=
  ⟨by decide, by decide, by decide, by decide⟩

/-- C15, amended: SaveTeam materializes users with last-write-wins per user id
within the call: after a successful SaveTeam, for every member entry that no
later entry of the list shares its id with, the stored user for that id (as
GetUser returns it) has the username and the active flag of that entry, and
the name of the team. -/
theorem save_team_last_write_wins (s : MemoryStore) (team : Team)
    (h : (SaveTeam s team).1 = none) (pre post : List TeamMember) (m : TeamMember)
    (hsplit : team.Members = pre ++ m :: post) (hlast : ∀ x ∈ post, x.UserID ≠ m.UserID) :
    GetUser (SaveTeam s team).2 m.UserID =
      .ok ⟨m.UserID, m.Username, team.Name, m.IsActive⟩ := by
  have hg := (SaveTeam_none_iff s team).1 h
  have hu := SaveTeam_users_get_of_none hg m.UserID
  rw [hsplit, lastEntry_split pre post m hlast] at hu
  simp [GetUser, hu, userOf]

/-- Witness of the amended C15: in team "twice" the second entry of Y is the
last one. -/
theorem save_team_last_write_wins_witness :
    (SaveTeam NewMemoryStore Example.twice).1 = none ∧
    GetUser (SaveTeam NewMemoryStore Example.twice).2 "Y" =
      .ok ⟨"Y", "yara", "twice", false⟩ :=
  ⟨by decide,
   save_team_last_write_wins NewMemoryStore Example.twice (by decide)
     [⟨"Y", "yuri", true⟩] [] ⟨"Y", "yara", false⟩ (by decide) (by decide)⟩

/-- C16: in every store state each mutation of the store fails exactly under
its condition and then leaves the whole state as it was: SaveTeam returns
ErrTeamExists exactly when the team name is stored (and no error otherwise),
SetUserActive returns ErrUserNotFound exactly when the user id is not stored,
SavePullRequest returns ErrPRExists exactly when the id is stored,
UpdatePullRequest returns ErrPRNotFound exactly when the id is not stored; and
whenever one of them returns an error, the state after the call equals the
state before. -/
theorem store_mutations_fail_atomically (s : MemoryStore) :
    (∀ team, ((SaveTeam s team).1 = some Err.ErrTeamExists ↔ s.teams.get team.Name ≠ none) ∧
      ((SaveTeam s team).1 = none ↔ s.teams.get team.Name = none) ∧
      (∀ err, (SaveTeam s team).1 = some err → (SaveTeam s team).2 = s)) ∧
    (∀ id active,
      ((MemoryStore.SetUserActive s id active).1 = .error Err.ErrUserNotFound ↔
        s.users.get id = none) ∧
      (s.users.get id ≠ none → ∃ u, (MemoryStore.SetUserActive s id active).1 = .ok u) ∧
      (∀ err, (MemoryStore.SetUserActive s id active).1 = .error err →
        (MemoryStore.SetUserActive s id active).2 = s)) ∧
    (∀ pr, ((SavePullRequest s pr).1 = some Err.ErrPRExists ↔ s.prs.get pr.ID ≠ none) ∧
      ((SavePullRequest s pr).1 = none ↔ s.prs.get pr.ID = none) ∧
      (∀ err, (SavePullRequest s pr).1 = some err → (SavePullRequest s pr).2 = s)) ∧
    (∀ pr, ((UpdatePullRequest s pr).1 = some Err.ErrPRNotFound ↔ s.prs.get pr.ID = none) ∧
      ((UpdatePullRequest s pr).1 = none ↔ s.prs.get pr.ID ≠ none) ∧
      (∀ err, (UpdatePullRequest s pr).1 = some err → (UpdatePullRequest s pr).2 = s)) := by
  refine ⟨?_, ?_, ?_, ?_⟩
  · intro team
    cases hg : s.teams.get team.Name with
    | some x => rw [SaveTeam_of_some hg]; simp
    | none => rw [SaveTeam_of_none hg]; simp
  · intro id active
    cases hg : s.users.get id with
    | none => simp [MemoryStore.SetUserActive, hg]
    | some u => simp [MemoryStore.SetUserActive, hg]
  · intro pr
    cases hg : s.prs.get pr.ID with
    | some x => rw [SavePullRequest_of_some hg]; simp
    | none => rw [SavePullRequest_of_none hg]; simp
  · intro pr
    cases hg : s.prs.get pr.ID with
    | none => rw [UpdatePullRequest_of_none hg]; simp
    | some x => rw [UpdatePullRequest_of_some hg]; simp

end Avito

namespace Avito

open MemoryStore Service

/-! ## Claims on the immutability of teams, on SetUserActive and on time stamps -/

theorem SaveTeam_teams_get_of_some (s : MemoryStore) (team : Team) {k : String} {T : Team}
    (h : s.teams.get k = some T) : (SaveTeam s team).2.teams.get k = some T := by
  cases hg : s.teams.get team.Name with
  | some x => rw [SaveTeam_of_some hg]; exact h
  | none =>
    rw [SaveTeam_teams_of_none hg, GoMap.get_set_of_ne]
    · exact h
    · intro e
      rw [e, h] at hg
      cases hg

namespace Service

/-- Whatever the state, `MergePullRequest` leaves it as it is or as an
`UpdatePullRequest` call leaves it. -/
theorem MergePullRequest_state_any (s : MemoryStore) (now : Nat) (id : String) :
    (MergePullRequest s now id).2 = s ∨
    ∃ pr1, (MergePullRequest s now id).2 = (UpdatePullRequest s pr1).2 := by
  rcases MergePullRequest_cases s now id with ⟨_, h⟩ | ⟨p, _, _, h⟩ | ⟨p, _, _, h⟩
  · left; rw [h]
  · left; rw [h]
  · right
    refine ⟨{ p with Status := PRStatusMerged, MergedAt := some now }, ?_⟩
    rw [h]
    cases hU : UpdatePullRequest s { p with Status := PRStatusMerged, MergedAt := some now } with
    | mk o s1 => cases o <;> rfl

/-- Whatever the state, `ReassignReviewer` leaves it as it is or as an
`UpdatePullRequest` call leaves it. -/
theorem ReassignReviewer_state_any (s : MemoryStore) (rand : Rand) (prID old : String) :
    (ReassignReviewer s rand prID old).2 = s ∨
    ∃ pr1, (ReassignReviewer s rand prID old).2 = (UpdatePullRequest s pr1).2 := by
  rcases ReassignReviewer_cases s rand prID old with ⟨err, h⟩ | ⟨p, idx, _, replacement, _,
    _, _, _, _, _, h⟩
  · left; rw [h]
  · right
    refine ⟨{ p with AssignedReviewers := p.AssignedReviewers.set idx replacement.ID }, ?_⟩
    rw [h]
    cases hU : UpdatePullRequest s
        { p with AssignedReviewers := p.AssignedReviewers.set idx replacement.ID } with
    | mk o s1 => cases o <;> rfl

theorem step_teams_get (s : MemoryStore) (op : Op) {k : String} {T : Team}
    (h : s.teams.get k = some T) : (step s op).teams.get k = some T := by
  cases op with
  | createTeam team =>
    show (CreateTeam s team).2.teams.get k = some T
    rw [CreateTeam_state]
    exact SaveTeam_teams_get_of_some s team h
  | getTeam name => exact h
  | setUserActive userID active =>
    show (Service.SetUserActive s userID active).2.teams.get k = some T
    rw [SetUserActive_eq, SetUserActive_teams]; exact h
  | createPullRequest rand now pr =>
    show (CreatePullRequest s rand now pr).2.teams.get k = some T
    rcases CreatePullRequest_state s rand now pr with e | ⟨ids, _, e⟩
    · rw [e]; exact h
    · rw [e, SavePullRequest_teams]; exact h
  | mergePullRequest now id =>
    show (MergePullRequest s now id).2.teams.get k = some T
    rcases MergePullRequest_state_any s now id with e | ⟨pr1, e⟩
    · rw [e]; exact h
    · rw [e, UpdatePullRequest_teams]; exact h
  | reassignReviewer rand prID old =>
    show (ReassignReviewer s rand prID old).2.teams.get k = some T
    rcases ReassignReviewer_state_any s rand prID old with e | ⟨pr1, e⟩
    · rw [e]; exact h
    · rw [e, UpdatePullRequest_teams]; exact h
  | listUserReviews userID => exact h

end Service

theorem storeStep_teams_get (s : MemoryStore) (op : StoreOp) {k : String} {T : Team}
    (h : s.teams.get k = some T) : (storeStep s op).teams.get k = some T := by
  cases op with
  | saveTeam team => exact SaveTeam_teams_get_of_some s team h
  | setUserActive id active =>
    show (MemoryStore.SetUserActive s id active).2.teams.get k = some T
    rw [SetUserActive_teams]; exact h
  | savePullRequest pr =>
    show (SavePullRequest s pr).2.teams.get k = some T
    rw [SavePullRequest_teams]; exact h
  | updatePullRequest pr =>
    show (UpdatePullRequest s pr).2.teams.get k = some T
    rw [UpdatePullRequest_teams]; exact h

theorem runAny_teams_get (ops : List AnyOp) (s : MemoryStore) {k : String} {T : Team}
    (h : s.teams.get k = some T) : (runAny s ops).teams.get k = some T := by
  induction ops generalizing s with
  | nil => exact h
  | cons op t ih =>
    apply ih
    cases op with
    | store o => exact storeStep_teams_get s o h
    | service o => exact Service.step_teams_get s o h

/-- C17: after a successful SaveTeam(T) in any store state, and after every
finite sequence of further calls of the store and of the service with any
arguments, GetTeam(T.name) succeeds and returns T itself: the name T.name and
the member list of T, entry by entry in the same order. -/
theorem saved_team_immutable (s : MemoryStore) (T : Team) (h : (SaveTeam s T).1 = none)
    (ops : List AnyOp) :
    MemoryStore.GetTeam (runAny (SaveTeam s T).2 ops) T.Name = .ok T ∧
    ∀ R, Service.GetTeam (runAny (SaveTeam s T).2 ops) T.Name = .ok R →
      R.Name = T.Name ∧ R.Members = T.Members ∧
      R.Members.map (fun m => (m.UserID, m.Username)) =
        T.Members.map (fun m => (m.UserID, m.Username)) := by
  have hg := (SaveTeam_none_iff s T).1 h
  have h0 : (SaveTeam s T).2.teams.get T.Name = some T := by
    rw [SaveTeam_teams_of_none hg]
    exact GoMap.get_set_self _ _ _
  have h1 := runAny_teams_get ops (SaveTeam s T).2 h0
  have h2 : MemoryStore.GetTeam (runAny (SaveTeam s T).2 ops) T.Name = .ok T := by
    simp [MemoryStore.GetTeam, h1]
  refine ⟨h2, ?_⟩
  intro R hR
  have hR2 : MemoryStore.GetTeam (runAny (SaveTeam s T).2 ops) T.Name = .ok R := hR
  rw [h2] at hR2
  cases hR2
  exact ⟨rfl, rfl, rfl⟩

/-- Witness of C17: team "core" after its user A is deactivated, a second
SaveTeam under the same name is rejected, team "dup" is saved and a pull
request is created and merged. -/
theorem saved_team_immutable_witness :
    (SaveTeam NewMemoryStore Example.core).1 = none ∧
    MemoryStore.GetTeam (runAny (SaveTeam NewMemoryStore Example.core).2
      [.service (.setUserActive "A" false), .store (.saveTeam ⟨"core", []⟩),
       .store (.saveTeam Example.dup),
       .service (.createPullRequest Rand.identity 1 Example.pr1),
       .service (.mergePullRequest 2 "PR1")]) "core" = .ok Example.core :=
  ⟨by decide,
   (saved_team_immutable NewMemoryStore Example.core (by decide)
      [.service (.setUserActive "A" false), .store (.saveTeam ⟨"core", []⟩),
       .store (.saveTeam Example.dup),
       .service (.createPullRequest Rand.identity 1 Example.pr1),
       .service (.mergePullRequest 2 "PR1")]).1⟩

/-- C18: SetUserActive(id, active) on a stored user returns that user with
isActive = active and the same id, username and team name, through the store
and through the service alike; GetUser(id) then returns the same record; every
other user, every team (member entries included, so GetTeam is unchanged),
every pull request and the reviewer index are as before. -/
theorem set_user_active_frame (s : MemoryStore) (id : String) (active : Bool) (user : User)
    (hu : s.users.get id = some user) :
    (MemoryStore.SetUserActive s id active).1 =
      .ok ⟨user.ID, user.Username, user.TeamName, active⟩ ∧
    Service.SetUserActive s id active = MemoryStore.SetUserActive s id active ∧
    GetUser (MemoryStore.SetUserActive s id active).2 id =
      .ok ⟨user.ID, user.Username, user.TeamName, active⟩ ∧
    (∀ k, k ≠ id → GetUser (MemoryStore.SetUserActive s id active).2 k = GetUser s k) ∧
    (MemoryStore.SetUserActive s id active).2.teams = s.teams ∧
    (∀ name, MemoryStore.GetTeam (MemoryStore.SetUserActive s id active).2 name =
      MemoryStore.GetTeam s name) ∧
    (MemoryStore.SetUserActive s id active).2.prs = s.prs ∧
    (MemoryStore.SetUserActive s id active).2.userPRsIdx = s.userPRsIdx := by
  refine ⟨?_, SetUserActive_eq s id active, ?_, ?_, SetUserActive_teams s id active, ?_,
    SetUserActive_prs s id active, SetUserActive_idx s id active⟩
  · simp [MemoryStore.SetUserActive, hu]
  · simp [MemoryStore.SetUserActive, hu, GetUser, GoMap.get_set]
  · intro k hk
    have e : ¬ id = k := fun e => hk e.symm
    simp [MemoryStore.SetUserActive, hu, GetUser, GoMap.get_set, e]
  · intro name
    simp [MemoryStore.GetTeam, SetUserActive_teams]

/-- Witness of C18: deactivating A in the store holding team "core" and
"PR1". -/
theorem set_user_active_frame_witness :
    Example.reviewedStore.users.get "A" = some ⟨"A", "alice", "core", true⟩ ∧
    (MemoryStore.SetUserActive Example.reviewedStore "A" false).1 =
      .ok ⟨"A", "alice", "core", false⟩ ∧
    MemoryStore.GetTeam (MemoryStore.SetUserActive Example.reviewedStore "A" false).2 "core" =
      MemoryStore.GetTeam Example.reviewedStore "core" :=
  ⟨by decide,
   (set_user_active_frame Example.reviewedStore "A" false ⟨"A", "alice", "core", true⟩
      (by decide)).1,
   (set_user_active_frame Example.reviewedStore "A" false ⟨"A", "alice", "core", true⟩
      (by decide)).2.2.2.2.2.1 "core"⟩

end Avito

namespace Avito

open MemoryStore Service

/-! ## Claim on the time stamps and the status -/

theorem Service.ExternalReachable.reachable {s : MemoryStore} (h : ExternalReachable s) :
    Service.Reachable s := by
  induction h with
  | init => exact Service.Reachable.init
  | step op _ _ ih => exact Service.Reachable.step op ih

theorem stamps_of_frame {s s1 : MemoryStore} (h : StampsConsistent s) (hp : s1.prs = s.prs) :
    StampsConsistent s1 := by
  unfold StampsConsistent
  rw [hp]
  exact h

theorem stamps_set {s s1 : MemoryStore} (h : StampsConsistent s) {k : String}
    {Q : PullRequest} (hp : s1.prs = s.prs.set k Q)
    (hQ : Q.CreatedAt ≠ none ∧ (Q.Status = PRStatusOpen ∨ Q.Status = PRStatusMerged) ∧
      (Q.MergedAt ≠ none ↔ Q.Status = PRStatusMerged)) : StampsConsistent s1 := by
  intro k2 P hP
  rw [hp, GoMap.get_set] at hP
  by_cases e : k = k2
  · simp only [e, if_true, Option.some.injEq] at hP
    rw [← hP]; exact hQ
  · simp only [e, if_false] at hP
    exact h k2 P hP

theorem Service.step_stamps {s : MemoryStore} (hk : Keyed s) (h : StampsConsistent s) (op : Op)
    (hop : Op.fromTransport op) : StampsConsistent (step s op) := by
  cases op with
  | createTeam team =>
    refine stamps_of_frame h ?_
    show (CreateTeam s team).2.prs = s.prs
    rw [CreateTeam_state, SaveTeam_prs]
  | getTeam name => exact h
  | setUserActive userID active =>
    refine stamps_of_frame h ?_
    show (Service.SetUserActive s userID active).2.prs = s.prs
    rw [SetUserActive_eq, SetUserActive_prs]
  | createPullRequest rand now pr =>
    obtain ⟨id, name, author, hpr⟩ := hop
    show StampsConsistent (CreatePullRequest s rand now pr).2
    rcases CreatePullRequest_outcome hk rand now pr with ⟨err, e⟩ | ⟨ids, hx, e, _⟩
    · rw [e]; exact h
    · have hx2 : s.prs.get (opened pr ids now).ID = none := hx
      rw [e]
      refine stamps_set h (SavePullRequest_prs_of_none hx2) ?_
      rw [hpr]
      refine ⟨by simp [opened], Or.inl rfl, ?_⟩
      constructor
      · intro hne
        exact absurd rfl hne
      · intro heq
        exact absurd heq open_ne_merged
  | mergePullRequest now id =>
    show StampsConsistent (MergePullRequest s now id).2
    rcases MergePullRequest_cases s now id with ⟨_, e⟩ | ⟨p, _, _, e⟩ | ⟨p, hp, hm, _⟩
    · rw [e]; exact h
    · rw [e]; exact h
    · obtain ⟨e1, e2⟩ := MergePullRequest_open hk now hp hm
      rw [e1]
      refine stamps_set h e2 ⟨(h id p hp).1, Or.inr rfl, ?_⟩
      constructor
      · intro _; rfl
      · intro _; simp
  | reassignReviewer rand prID old =>
    show StampsConsistent (ReassignReviewer s rand prID old).2
    rcases ReassignReviewer_state hk rand prID old with e | ⟨p, idx, newID, hp, _, e⟩
    · rw [e]; exact h
    · have hid : p.ID = prID := hk.prs prID p hp
      have hg : s.prs.get (PullRequest.ID
          { p with AssignedReviewers := p.AssignedReviewers.set idx newID }) = some p := by
        show s.prs.get p.ID = some p
        rw [hid]; exact hp
      rw [e]
      exact stamps_set h (UpdatePullRequest_prs_of_some hg) (h prID p hp)
  | listUserReviews userID => exact h

theorem Service.ExternalReachable.stamps {s : MemoryStore} (h : ExternalReachable s) :
    StampsConsistent s := by
  induction h with
  | init =>
    intro k P hP
    simp [NewMemoryStore, GoMap.get] at hP
  | step op hop hs ih => exact Service.step_stamps hs.reachable.storeReachable.keyed ih op hop

theorem Example.servedStore_external : ExternalReachable Example.servedStore :=
  ExternalReachable.step
    (.createPullRequest Rand.identity 1 (Service.request "PR1" "first" "A"))
    ⟨"PR1", "first", "A", rfl⟩
    (ExternalReachable.step (.createTeam Example.core) trivial ExternalReachable.init)

/-- C20: in every state reachable from the empty store through the calls the
transport layer makes (CreatePullRequest with only id, name and author filled
in, CreateTeam, SetUserActive, MergePullRequest, ReassignReviewer and the
reads), every stored pull request has createdAt set, has the status OPEN or
MERGED, and has mergedAt set exactly when its status is MERGED; and a
successful ReassignReviewer returns and stores a record with the status,
createdAt and mergedAt the pull request had before. -/
theorem stamps_consistent (s : MemoryStore) (hs : ExternalReachable s) :
    (∀ k P, s.prs.get k = some P →
      P.CreatedAt ≠ none ∧ (P.Status = PRStatusOpen ∨ P.Status = PRStatusMerged) ∧
      (P.MergedAt ≠ none ↔ P.Status = PRStatusMerged)) ∧
    (∀ rand prID old prev P newID, s.prs.get prID = some prev →
      (ReassignReviewer s rand prID old).1 = .ok (P, newID) →
      P.Status = prev.Status ∧ P.CreatedAt = prev.CreatedAt ∧ P.MergedAt = prev.MergedAt ∧
      (ReassignReviewer s rand prID old).2.prs.get prID = some P) := by
  refine ⟨hs.stamps, ?_⟩
  intro rand prID old prev P newID hprev h
  have hfull : ReassignReviewer s rand prID old =
      (.ok (P, newID), (ReassignReviewer s rand prID old).2) := Prod.ext h rfl
  obtain ⟨p, idx, _, _, _, _, hp, _, _, _, _, _, _, hP, _, hprs⟩ :=
    ReassignReviewer_ok hs.reachable.storeReachable.keyed hfull
  rw [hprev] at hp
  cases hp
  refine ⟨by rw [hP], by rw [hP], by rw [hP], ?_⟩
  rw [hprs]
  exact GoMap.get_set_self _ _ _

/-- Witness of C20: the pull request "PR1" created through the transport call
has createdAt set, status OPEN and no mergedAt. -/
theorem stamps_consistent_witness :
    ExternalReachable Example.servedStore ∧
    (opened Example.pr1 ["B"] 1).CreatedAt ≠ none ∧
    ((opened Example.pr1 ["B"] 1).Status = PRStatusOpen ∨
      (opened Example.pr1 ["B"] 1).Status = PRStatusMerged) ∧
    ((opened Example.pr1 ["B"] 1).MergedAt ≠ none ↔
      (opened Example.pr1 ["B"] 1).Status = PRStatusMerged) :=
  ⟨Example.servedStore_external,
   (stamps_consistent Example.servedStore Example.servedStore_external).1 "PR1"
     (opened Example.pr1 ["B"] 1) (by decide)⟩

/-! ## Claim on the copies returned by the reads -/

/-- C19 fails on the code: `GetTeam` copies the `Team` struct but not the
backing array of `Members`. With team "core" stored, a caller that gets the
team and writes `t.Members[0]` changes what the next `GetTeam` returns. -/
theorem getTeam_shares_members :
    Ref.readTeam Example.coreHeap "core" = .ok Example.core ∧
    ∃ t, Ref.GetTeam Example.coreHeap "core" = .ok t ∧
      Ref.readTeam (Ref.writeMember Example.coreHeap t 0 ⟨"A", "mallory", false⟩) "core" =
        .ok ⟨"core", [⟨"A", "mallory", false⟩, ⟨"B", "bob", true⟩, ⟨"C", "carol", false⟩]⟩ ∧
      Ref.readTeam (Ref.writeMember Example.coreHeap t 0 ⟨"A", "mallory", false⟩) "core" ≠
        Ref.readTeam Example.coreHeap "core" :=
  ⟨by decide, ⟨"core", ⟨0, 3⟩⟩, by decide, by decide, by decide⟩

end Avito
